import Mathlib

/-!
Verification of the fontpeek font-discovery pipeline.

The repository's core logic (`src/utils/fontExtractor.ts` and the in-app
pipeline of `App.tsx`) is regex- and string-driven JavaScript.  This file
shallowly embeds that code:

* a small backtracking regular-expression engine reproducing the JavaScript
  semantics (leftmost match, greedy quantifiers, left-biased alternation,
  the `i` flag, capture groups, and the `g`-flag `exec` loop);
* each regex literal of the source transliterated into the engine's syntax;
* the parsing, normalization, deduplication and proxy-fallback functions of
  the source translated into Lean, with the browser primitives that can
  throw (`new URL`, `fetch`) modelled by `Option`/`Except`-valued parameters.
-/

namespace FontPeek

/-! ## JavaScript-flavoured character and string helpers -/

/-- Case-insensitive character comparison used by the `i` regex flag
(ASCII case folding, which covers every pattern in the source). -/
def ciEq (a b : Char) : Bool := a.toLower == b.toLower

/-- The characters matched by the regex class `\s` (ASCII part). -/
def jsSpace (c : Char) : Bool :=
  c == ' ' || c == '\t' || c == '\n' || c == '\r' || c == '\x0b' || c == '\x0c'

/-- `String.prototype.toLowerCase` restricted to ASCII. -/
def jsToLower (s : String) : String := String.mk (s.toList.map Char.toLower)

/-- `String.prototype.trim`: drop leading and trailing whitespace. -/
def jsTrim (s : String) : String :=
  String.mk (((s.toList.dropWhile jsSpace).reverse.dropWhile jsSpace).reverse)

/-- Is `needle` a contiguous sublist of `hay`?  (The empty needle always
is, matching `"x".includes("")` in JavaScript.) -/
def subList (needle : List Char) : List Char → Bool
  | [] => needle.isEmpty
  | c :: t => needle.isPrefixOf (c :: t) || subList needle t

/-- `a.includes b` on strings: substring containment. -/
def jsIncludes (a b : String) : Bool := subList b.toList a.toList

/-- `String.prototype.split` with a single-character separator
(JavaScript `"".split(c)` gives `[""]`, as does `List`-based splitting here). -/
def jsSplitChar (sep : Char) (s : String) : List String :=
  (go s.toList [] []).reverse
where
  go : List Char → List Char → List String → List String
    | [], cur, acc => String.mk cur.reverse :: acc
    | c :: rest, cur, acc =>
        if c == sep then go rest [] (String.mk cur.reverse :: acc)
        else go rest (c :: cur) acc

/-- `pre` is a prefix of `s` (a kernel-friendly `String.startsWith`). -/
def strStarts (s pre : String) : Bool := pre.toList.isPrefixOf s.toList

/-- Drop the first `n` characters (a kernel-friendly `String.drop`). -/
def strDrop (s : String) (n : Nat) : String := String.mk (s.toList.drop n)

/-- Join with a separator (a kernel-friendly `String.intercalate`). -/
def strJoin (sep : String) : List String → String
  | [] => ""
  | [x] => x
  | x :: xs => x ++ sep ++ strJoin sep xs

/-! ## A JavaScript-style backtracking regex engine

Syntax is restricted to the constructs appearing in the source's regex
literals.  Matching returns the candidate `(length, captures)` pairs in
exactly the priority order a JavaScript backtracking engine explores them:
greedy quantifiers prefer more repetitions, alternation prefers the left
branch, and the overall match is the first candidate. -/

/-- An atom of a character class: a literal member, `\d`, or `\s`. -/
inductive CAtom where
  | lit (c : Char)
  | digit
  | space
deriving DecidableEq

/-- Regular expressions: the fragment used by the source's patterns. -/
inductive RE where
  | eps
  | lit (c : Char)
  | cls (neg : Bool) (atoms : List CAtom)
  | seq (a b : RE)
  | alt (a b : RE)
  | star (a : RE)
  | opt (a : RE)
  | grp (g : Nat) (a : RE)
deriving DecidableEq

/-- Does a single character match a class atom (under the `i` flag)? -/
def atomMatch (c : Char) : CAtom → Bool
  | .lit c' => ciEq c c'
  | .digit => c.isDigit
  | .space => jsSpace c

/-- Captured groups: group index to captured characters; the most recent
write for a group is at the head. -/
abbrev Caps := List (Nat × List Char)

/-- Read a capture group. -/
def capGet (caps : Caps) (g : Nat) : Option (List Char) :=
  (caps.find? (fun p => p.1 == g)).map (·.2)

/-- One level of the matcher: candidate `(consumed length, captures)`
pairs in JavaScript backtracking priority order (greedy quantifiers
prefer more repetitions, alternation prefers the left branch).  A star
re-enters the matcher through `next`, which the driver below ties to one
less unit of fuel; an iteration consuming no input is cut off, as in
JavaScript. -/
def reStep (next : RE → List Char → Caps → List (Nat × Caps)) :
    RE → List Char → Caps → List (Nat × Caps)
  | .eps, _, caps => [(0, caps)]
  | .lit c, s, caps =>
      match s with
      | [] => []
      | c' :: _ => if ciEq c' c then [(1, caps)] else []
  | .cls neg atoms, s, caps =>
      match s with
      | [] => []
      | c' :: _ => if (atoms.any (atomMatch c')) != neg then [(1, caps)] else []
  | .seq a b, s, caps =>
      (reStep next a s caps).flatMap (fun p =>
        (reStep next b (s.drop p.1) p.2).map (fun q => (p.1 + q.1, q.2)))
  | .alt a b, s, caps => reStep next a s caps ++ reStep next b s caps
  | .star a, s, caps =>
      ((reStep next a s caps).flatMap (fun p =>
        if p.1 == 0 then []
        else (next (.star a) (s.drop p.1) p.2).map
          (fun q => (p.1 + q.1, q.2))))
      ++ [(0, caps)]
  | .opt a, s, caps => reStep next a s caps ++ [(0, caps)]
  | .grp g a, s, caps =>
      (reStep next a s caps).map (fun p => (p.1, (g, s.take p.1) :: p.2))

/-- All candidate matches of `r` at the head of `s`.  `fuel` bounds the
star nesting depth; `s.length + 1` always suffices because every star
iteration consumes input. -/
def reMatches : Nat → RE → List Char → Caps → List (Nat × Caps)
  | 0 => reStep (fun _ _ _ => [])
  | fuel + 1 => reStep (reMatches fuel)

/-- A successful regex match: start index, length, captures. -/
structure MatchRes where
  start : Nat
  len : Nat
  caps : Caps
deriving DecidableEq

/-- The match attempt at one position: the first candidate in priority
order, exactly the match a JavaScript engine commits to. -/
def matchAt (r : RE) (s : List Char) (i : Nat) : Option MatchRes :=
  ((reMatches (s.length + 1) r (s.drop i) []).head?).map
    (fun p => { start := i, len := p.1, caps := p.2 })

/-- Scan positions `i, i+1, ...` (fuel-driven) for the first position
with a match. -/
def fmfAux (r : RE) (s : List Char) : Nat → Nat → Option MatchRes
  | 0, _ => none
  | fuel + 1, i =>
      if s.length < i then none
      else
        match matchAt r s i with
        | some m => some m
        | none =>
            if i == s.length then none
            else fmfAux r s fuel (i + 1)

/-- The first position with a match: `String.prototype.match` for a
non-global regex (and one step of the global `exec` loop). -/
def firstMatchFrom (r : RE) (s : List Char) (i : Nat) : Option MatchRes :=
  fmfAux r s (s.length + 1 - i) i

/-- `str.match(re)` for the source's non-global regexes. -/
def jsMatch (r : RE) (s : String) : Option MatchRes :=
  firstMatchFrom r s.toList 0

/-- The `while ((m = re.exec(text)) !== null)` loop for a global regex:
every successive match, resuming from the end of the previous one
(advancing by one on an empty match, as `lastIndex` does). -/
def execAll (r : RE) (s : String) : List MatchRes :=
  go 0 (s.toList.length + 1)
where
  go (i fuel : Nat) : List MatchRes :=
    match fuel with
    | 0 => []
    | fuel + 1 =>
        match firstMatchFrom r s.toList i with
        | none => []
        | some m =>
            m :: go (if m.len == 0 then m.start + 1 else m.start + m.len) fuel

/-- Group `g` of a match, as a string (`""` when unset, which never
happens for the groups the source reads). -/
def groupStr (m : MatchRes) (g : Nat) : String :=
  String.mk ((capGet m.caps g).getD [])

/-! ### The source's regex literals, transliterated -/

/-- A sequence of literal characters. -/
def lits (s : String) : RE :=
  s.toList.foldr (fun c r => RE.seq (RE.lit c) r) RE.eps

/-- Concatenation of a list of regexes. -/
def cat (rs : List RE) : RE := rs.foldr RE.seq RE.eps

/-- Greedy `+`, encoded as in the usual `r r*` expansion. -/
def rplus (r : RE) : RE := RE.seq r (RE.star r)

/-- `\s` -/
def reSp : RE := RE.cls false [CAtom.space]

/-- `['"]` -/
def reQuote : RE := RE.cls false [CAtom.lit '\'', CAtom.lit '"']

/-- `/@font-face\s*\{([^}]*(?:\{[^}]*\}[^}]*)*)\}/gi` -/
def fontFaceRe : RE :=
  cat [lits "@font-face", RE.star reSp, RE.lit '{',
    RE.grp 1 (RE.seq (RE.star (RE.cls true [CAtom.lit '}']))
      (RE.star (cat [RE.lit '{', RE.star (RE.cls true [CAtom.lit '}']),
        RE.lit '}', RE.star (RE.cls true [CAtom.lit '}'])]))),
    RE.lit '}']

/-- `/font-family\s*:\s*['"]?([^'";,]+)['"]?/i` -/
def familyRe : RE :=
  cat [lits "font-family", RE.star reSp, RE.lit ':', RE.star reSp,
    RE.opt reQuote,
    RE.grp 1 (rplus (RE.cls true
      [CAtom.lit '\'', CAtom.lit '"', CAtom.lit ';', CAtom.lit ','])),
    RE.opt reQuote]

/-- The capture body `(\d+|normal|bold|lighter|bolder)`. -/
def weightBody : RE :=
  RE.alt (rplus (RE.cls false [CAtom.digit]))
    (RE.alt (lits "normal") (RE.alt (lits "bold")
      (RE.alt (lits "lighter") (lits "bolder"))))

/-- `/font-weight\s*:\s*(\d+|normal|bold|lighter|bolder)/i` -/
def weightRe : RE :=
  cat [lits "font-weight", RE.star reSp, RE.lit ':', RE.star reSp,
    RE.grp 1 weightBody]

/-- The capture body `(normal|italic|oblique)`. -/
def styleBody : RE :=
  RE.alt (lits "normal") (RE.alt (lits "italic") (lits "oblique"))

/-- `/font-style\s*:\s*(normal|italic|oblique)/i` -/
def styleRe : RE :=
  cat [lits "font-style", RE.star reSp, RE.lit ':', RE.star reSp,
    RE.grp 1 styleBody]

/-- `/src\s*:\s*([^;]+)/is` (the `s` flag is irrelevant: no `.` occurs). -/
def srcRe : RE :=
  cat [lits "src", RE.star reSp, RE.lit ':', RE.star reSp,
    RE.grp 1 (rplus (RE.cls true [CAtom.lit ';']))]

/-- `[^'")\s]` — the url-text class. -/
def urlChar : RE :=
  RE.cls true [CAtom.lit '\'', CAtom.lit '"', CAtom.lit ')', CAtom.space]

/-- `/url\(['"]?([^'")\s]+)['"]?\)\s*format\(['"]?([^'"()]+)['"]?\)/gi` -/
def urlFormatRe : RE :=
  cat [lits "url", RE.lit '(', RE.opt reQuote, RE.grp 1 (rplus urlChar),
    RE.opt reQuote, RE.lit ')', RE.star reSp,
    lits "format", RE.lit '(', RE.opt reQuote,
    RE.grp 2 (rplus (RE.cls true
      [CAtom.lit '\'', CAtom.lit '"', CAtom.lit '(', CAtom.lit ')'])),
    RE.opt reQuote, RE.lit ')']

/-- `/url\(['"]?([^'")\s]+)['"]?\)/gi` -/
def simpleUrlRe : RE :=
  cat [lits "url", RE.lit '(', RE.opt reQuote, RE.grp 1 (rplus urlChar),
    RE.opt reQuote, RE.lit ')']


/-! ## Data model -/

/-- `FontInfo` from `src/types/index.ts` (the `previewUrl` field is never
set by the extractor and is omitted). -/
structure FontInfo where
  family : String
  weight : String
  style : String
  source : String
  url : Option String := none
  format : Option String := none
deriving DecidableEq

/-- The browser URL primitives the source calls.  `new URL` throws on
invalid input, modelled by `Option`/`none`:
`resolve u base` is `new URL(u, base).href`, `hostname s` is
`new URL(s).hostname`, and `getParam s k` is `new URL(s).searchParams.get(k)`
(outer `none` = the constructor threw, inner `none` = parameter absent).
Theorems about the parsers quantify over an arbitrary model wherever the
URL semantics are irrelevant; `browserUrl` below is a concrete executable
model for evaluating them at concrete inputs. -/
structure UrlModel where
  resolve : String → String → Option String
  hostname : String → Option String
  getParam : String → String → Option (Option String)

/-! ## `fontExtractor.ts`: weight and format normalization -/

/-- The `weightMap` object literal of `normalizeWeight`. -/
def weightMap : List (String × String) :=
  [("normal", "400"), ("bold", "700"), ("lighter", "300"), ("bolder", "700")]

/-- `normalizeWeight` from `fontExtractor.ts`:
`weightMap[weight.toLowerCase()] || weight`. -/
def normalizeWeight (weight : String) : String :=
  match weightMap.find? (fun p => p.1 == jsToLower weight) with
  | some p => p.2
  | none => weight

/-- The `formatMap` object literal of `getFormatFromUrl`. -/
def formatMap : List (String × String) :=
  [("woff2", "woff2"), ("woff", "woff"), ("ttf", "truetype"),
   ("otf", "opentype"), ("eot", "embedded-opentype")]

/-- The extension `getFormatFromUrl` inspects:
`url.split('.').pop()?.toLowerCase().split('?')[0]`. -/
def extensionOfUrl (url : String) : String :=
  (jsSplitChar '?' (jsToLower ((jsSplitChar '.' url).getLastD ""))).headD ""

/-- `getFormatFromUrl` from `fontExtractor.ts`:
`formatMap[extension || ''] || 'unknown'`. -/
def getFormatFromUrl (url : String) : String :=
  match formatMap.find? (fun p => p.1 == extensionOfUrl url) with
  | some p => p.2
  | none => "unknown"

/-! ## `fontExtractor.ts`: `parseFontFaces` -/

/-- Field extraction: `familyMatch ? familyMatch[1].trim() : 'Unknown'`. -/
def familyOf (block : String) : String :=
  match jsMatch familyRe block with
  | some m => jsTrim (groupStr m 1)
  | none => "Unknown"

/-- Field extraction: `weightMatch ? weightMatch[1] : '400'`. -/
def weightOf (block : String) : String :=
  match jsMatch weightRe block with
  | some m => groupStr m 1
  | none => "400"

/-- Field extraction: `styleMatch ? styleMatch[1] : 'normal'`. -/
def styleOf (block : String) : String :=
  match jsMatch styleRe block with
  | some m => groupStr m 1
  | none => "normal"

/-- Field extraction: the `src` value, when the `src` regex matches. -/
def srcOf (block : String) : Option String :=
  (jsMatch srcRe block).map (fun m => groupStr m 1)

/-- The descriptor built inside the `try` block — `new URL(fontUrl,
baseUrl).href` for the `url` field and `new URL(baseUrl).hostname` for
`source`, `none` when either constructor throws. -/
def mkResolved (m : UrlModel) (baseUrl family weight style fontUrl format : String) :
    Option FontInfo :=
  (m.resolve fontUrl baseUrl).bind (fun fullUrl =>
    (m.hostname baseUrl).map (fun host =>
      { family := family, weight := normalizeWeight weight, style := style,
        source := host, url := some fullUrl, format := some format }))

/-- The shared push:
`try { const fullUrl = new URL(fontUrl, baseUrl).href; fonts.push({family,
weight: normalizeWeight(weight), style, source: new URL(baseUrl).hostname,
url: fullUrl, format}) } catch { /* skip */ }`. -/
def pushResolved (m : UrlModel) (baseUrl family weight style fontUrl format : String)
    (fonts : List FontInfo) : List FontInfo :=
  fonts ++ (mkResolved m baseUrl family weight style fontUrl format).toList

/-- The skip test of the bare-`url()` pass:
`fonts.some(f => f.url?.includes(fontUrl))`. -/
def urlAlreadySeen (fonts : List FontInfo) (fontUrl : String) : Bool :=
  fonts.any (fun f =>
    match f.url with
    | some u => jsIncludes u fontUrl
    | none => false)

/-- The `url() format()` pass over a `src` value, threading the global
descriptor accumulator. -/
def pairPass (m : UrlModel) (baseUrl family weight style srcValue : String)
    (fonts : List FontInfo) : List FontInfo :=
  (execAll urlFormatRe srcValue).foldl
    (fun fs mt =>
      pushResolved m baseUrl family weight style (groupStr mt 1)
        (jsToLower (groupStr mt 2)) fs)
    fonts

/-- The bare-`url()` pass over a `src` value, with the substring skip
test against everything accumulated so far. -/
def barePass (m : UrlModel) (baseUrl family weight style srcValue : String)
    (fonts : List FontInfo) : List FontInfo :=
  (execAll simpleUrlRe srcValue).foldl
    (fun fs mt =>
      let fontUrl := groupStr mt 1
      if urlAlreadySeen fs fontUrl then fs
      else pushResolved m baseUrl family weight style fontUrl
        (getFormatFromUrl fontUrl) fs)
    fonts

/-- One iteration of the `@font-face` block loop of `parseFontFaces`. -/
def processBlock (m : UrlModel) (baseUrl : String) (fonts : List FontInfo)
    (block : String) : List FontInfo :=
  let family := familyOf block
  let weight := weightOf block
  let style := styleOf block
  match srcOf block with
  | none => fonts
  | some srcValue =>
      barePass m baseUrl family weight style srcValue
        (pairPass m baseUrl family weight style srcValue fonts)

/-- The bodies of the `@font-face` blocks the global regex finds. -/
def fontFaceBlocks (cssText : String) : List String :=
  (execAll fontFaceRe cssText).map (fun mt => groupStr mt 1)

/-- `parseFontFaces(cssText, baseUrl)` from `fontExtractor.ts`. -/
def parseFontFaces (m : UrlModel) (cssText baseUrl : String) : List FontInfo :=
  (fontFaceBlocks cssText).foldl (processBlock m baseUrl) []

/-! ### Throw-instrumented variant of `parseFontFaces`

To state that the parser never lets an exception escape, the same
translation is repeated in `Except`: each operation that can throw in the
browser (`new URL`) is an `Except` action, and the source's `try/catch`
blocks are the only handlers.  `parseFontFaces_never_throws` proves the
result is always `ok` and agrees with the plain translation. -/

/-- `new URL(u, base).href` as a throwing operation. -/
def resolveT (m : UrlModel) (u base : String) : Except String String :=
  match m.resolve u base with
  | some h => Except.ok h
  | none => Except.error "TypeError: Invalid URL"

/-- `new URL(s).hostname` as a throwing operation. -/
def hostnameT (m : UrlModel) (s : String) : Except String String :=
  match m.hostname s with
  | some h => Except.ok h
  | none => Except.error "TypeError: Invalid URL"

/-- `try { body } catch { fallback }`. -/
def tryCatchJs {α : Type} (body : Except String α) (fallback : α) : α :=
  match body with
  | Except.ok v => v
  | Except.error _ => fallback

/-- `pushResolved`, with the `try/catch` of the source made explicit. -/
def pushResolvedT (m : UrlModel) (baseUrl family weight style fontUrl format : String)
    (fonts : List FontInfo) : List FontInfo :=
  tryCatchJs
    (match resolveT m fontUrl baseUrl with
     | Except.error e => Except.error e
     | Except.ok fullUrl =>
         match hostnameT m baseUrl with
         | Except.error e => Except.error e
         | Except.ok host =>
             Except.ok (fonts ++
               [{ family := family, weight := normalizeWeight weight,
                  style := style, source := host, url := some fullUrl,
                  format := some format }]))
    fonts

/-- One block iteration in `Except`; an uncaught exception would surface
as `error`. -/
def processBlockT (m : UrlModel) (baseUrl : String) (fonts : List FontInfo)
    (block : String) : Except String (List FontInfo) :=
  let family := familyOf block
  let weight := weightOf block
  let style := styleOf block
  match srcOf block with
  | none => Except.ok fonts
  | some srcValue =>
      match (execAll urlFormatRe srcValue).foldlM
          (fun fs mt =>
            Except.ok (pushResolvedT m baseUrl family weight style (groupStr mt 1)
              (jsToLower (groupStr mt 2)) fs))
          fonts with
      | Except.error e => Except.error e
      | Except.ok afterPairs =>
          (execAll simpleUrlRe srcValue).foldlM
            (fun fs mt =>
              let fontUrl := groupStr mt 1
              if urlAlreadySeen fs fontUrl then Except.ok fs
              else Except.ok (pushResolvedT m baseUrl family weight style fontUrl
                (getFormatFromUrl fontUrl) fs))
            afterPairs

/-- `parseFontFaces` in `Except`: the whole block loop. -/
def parseFontFacesT (m : UrlModel) (cssText baseUrl : String) :
    Except String (List FontInfo) :=
  (fontFaceBlocks cssText).foldlM (processBlockT m baseUrl) []

/-! ## `fontExtractor.ts`: `parseGoogleFontsUrl` -/

/-- A Google Fonts descriptor with the given family/weight/style
(`source` is the literal `'Google Fonts'`, no `url`, no `format`). -/
def googleFont (fontName weight style : String) : FontInfo :=
  { family := fontName, weight := weight, style := style,
    source := "Google Fonts" }

/-- One weight-spec token: `const isItalic = w.includes('i') ||
w.includes('italic'); const weight = w.replace(/[^\d]/g, '') || '400'`. -/
def googleToken (fontName w : String) : FontInfo :=
  let isItalic := jsIncludes w "i" || jsIncludes w "italic"
  let digits := w.toList.filter Char.isDigit
  let weight := if digits.isEmpty then "400" else String.mk digits
  googleFont fontName weight (if isItalic then "italic" else "normal")

/-- One `|`-separated family segment of the `family` parameter. -/
def googleFamilySegment (family : String) : List FontInfo :=
  let parts := jsSplitChar ':' family
  let name := parts.headD ""
  let fontName := String.mk (name.toList.map (fun c => if c == '+' then ' ' else c))
  match parts[1]? with
  | some weights =>
      if weights == "" then [googleFont fontName "400" "normal"]
      else (jsSplitChar ',' weights).map (googleToken fontName)
  | none => [googleFont fontName "400" "normal"]

/-- `parseGoogleFontsUrl(url)` from `fontExtractor.ts` (a URL-constructor
throw is caught and yields the empty list). -/
def parseGoogleFontsUrl (m : UrlModel) (url : String) : List FontInfo :=
  match m.getParam url "family" with
  | none => []
  | some none => []
  | some (some familyParam) =>
      (jsSplitChar '|' familyParam).flatMap googleFamilySegment

/-! ## `extractFontsFromCSS`: final deduplication -/

/-- The deduplication key: `` `${font.family}-${font.weight}-${font.style}` ``. -/
def fontKey (f : FontInfo) : String :=
  f.family ++ "-" ++ f.weight ++ "-" ++ f.style

/-- The `fonts.reduce(...)` of `extractFontsFromCSS`: fold into an
insertion-ordered map keyed by `fontKey`, set only when absent, then
`Array.from(map.values())`. -/
def dedupeFonts (fonts : List FontInfo) : List FontInfo :=
  (fonts.foldl
      (fun acc f =>
        let key := fontKey f
        if acc.any (fun p => p.1 == key) then acc else acc ++ [(key, f)])
      ([] : List (String × FontInfo))).map (·.2)

/-! ## `App.tsx`: the in-app pipeline -/

/-- `FontWeight` from `App.tsx`. -/
structure AppFontWeight where
  weight : String
  style : String
  url : String
  format : String
deriving DecidableEq

/-- The `Map<string, FontWeight[]>` of `extractFonts`, insertion-ordered. -/
abbrev AppFontMap := List (String × List AppFontWeight)

/-- `normalizeWeight` from `App.tsx` (only `normal` and `bold`). -/
def appNormalizeWeight (w : String) : String :=
  if w == "normal" then "400" else if w == "bold" then "700" else w

/-- `/@font-face\s*\{([^}]+)\}/gi` from `App.tsx`. -/
def appFontFaceRe : RE :=
  cat [lits "@font-face", RE.star reSp, RE.lit '{',
    RE.grp 1 (rplus (RE.cls true [CAtom.lit '}'])), RE.lit '}']

/-- `/font-family\s*:\s*['"]?([^'";]+)['"]?/i` from `App.tsx` (no comma
in the excluded class, unlike `fontExtractor.ts`). -/
def appFamilyRe : RE :=
  cat [lits "font-family", RE.star reSp, RE.lit ':', RE.star reSp,
    RE.opt reQuote,
    RE.grp 1 (rplus (RE.cls true [CAtom.lit '\'', CAtom.lit '"', CAtom.lit ';'])),
    RE.opt reQuote]

/-- `/font-weight\s*:\s*(\d+|normal|bold)/i` from `App.tsx`. -/
def appWeightRe : RE :=
  cat [lits "font-weight", RE.star reSp, RE.lit ':', RE.star reSp,
    RE.grp 1 (RE.alt (rplus (RE.cls false [CAtom.digit]))
      (RE.alt (lits "normal") (lits "bold")))]

/-- `/url\(['"]?([^'")\s]+)['"]?\)\s*format\(['"]?([^'"]+)['"]?\)/i` from
`App.tsx` (format class excludes only quotes). -/
def appUrlFormatRe : RE :=
  cat [lits "url", RE.lit '(', RE.opt reQuote, RE.grp 1 (rplus urlChar),
    RE.opt reQuote, RE.lit ')', RE.star reSp,
    lits "format", RE.lit '(', RE.opt reQuote,
    RE.grp 2 (rplus (RE.cls true [CAtom.lit '\'', CAtom.lit '"'])),
    RE.opt reQuote, RE.lit ')']

/-- The extension computed in the bare-`url()` branch of `App.tsx`:
`fontUrl.split('.').pop()?.split('?')[0] || ''` (no lowercasing, no map). -/
def appExtension (fontUrl : String) : String :=
  (jsSplitChar '?' ((jsSplitChar '.' fontUrl).getLastD "")).headD ""

/-- One block iteration of `parseFontFaces` from `App.tsx`.  Blocks
without `font-family` or without `src` are skipped (`continue`); the URL
resolution failure is caught leaving `fontUrl` unresolved; per family the
entry is appended only when no entry with the same weight and style
exists. -/
def appProcessBlock (m : UrlModel) (baseUrl : Option String)
    (fontMap : AppFontMap) (block : String) : AppFontMap :=
  match jsMatch appFamilyRe block with
  | none => fontMap
  | some famM =>
    let family := jsTrim (groupStr famM 1)
    let weight :=
      match jsMatch appWeightRe block with
      | some mw => appNormalizeWeight (groupStr mw 1)
      | none => "400"
    let style :=
      match jsMatch styleRe block with
      | some ms => groupStr ms 1
      | none => "normal"
    match (jsMatch srcRe block).map (fun ms => groupStr ms 1) with
    | none => fontMap
    | some srcValue =>
      let urlAndFormat : String × String :=
        match jsMatch appUrlFormatRe srcValue with
        | some mf => (groupStr mf 1, groupStr mf 2)
        | none =>
          match jsMatch simpleUrlRe srcValue with
          | some mo => (groupStr mo 1, appExtension (groupStr mo 1))
          | none => ("", "woff2")
      if urlAndFormat.1 == "" then fontMap
      else
        let fontUrl :=
          match baseUrl with
          | some b =>
              if b != "" && !(strStarts urlAndFormat.1 "http") then
                match m.resolve urlAndFormat.1 b with
                | some u => u
                | none => urlAndFormat.1
              else urlAndFormat.1
          | none => urlAndFormat.1
        let withFam :=
          if fontMap.any (fun q => q.1 == family) then fontMap
          else fontMap ++ [(family, [])]
        withFam.map (fun q =>
          if q.1 == family then
            if q.2.any (fun w => w.weight == weight && w.style == style) then q
            else (q.1, q.2 ++ [{ weight := weight, style := style,
                                 url := fontUrl, format := urlAndFormat.2 }])
          else q)

/-- `parseFontFaces(css, fontMap, baseUrl?)` from `App.tsx`. -/
def appParseFontFaces (m : UrlModel) (css : String) (fontMap : AppFontMap)
    (baseUrl : Option String) : AppFontMap :=
  ((execAll appFontFaceRe css).map (fun mt => groupStr mt 1)).foldl
    (appProcessBlock m baseUrl) fontMap

/-! ## `App.tsx`: `fetchWithProxy` -/

/-- The browser `Response`, reduced to what the source reads. -/
structure JsResponse where
  status : Nat
  body : String
deriving DecidableEq

/-- `Response.ok`: HTTP status in the 2xx range. -/
def JsResponse.ok (r : JsResponse) : Bool := 200 ≤ r.status && r.status ≤ 299

/-- `CORS_PROXIES` from `App.tsx`. -/
def CORS_PROXIES : List String :=
  ["https://corsproxy.io/?", "https://api.allorigins.win/raw?url="]

/-- `encodeURIComponent`: percent-encode everything but the unreserved
characters, over the UTF-8 bytes. -/
def uriUnreserved (c : Char) : Bool :=
  c.isAlpha || c.isDigit || c == '-' || c == '_' || c == '.' || c == '!' ||
    c == '~' || c == '*' || c == '\'' || c == '(' || c == ')' 

/-- Hex digit for percent-encoding. -/
def hexDigit (n : Nat) : Char := "0123456789ABCDEF".toList.getD n '0'

/-- UTF-8 bytes of a character. -/
def utf8Bytes (c : Char) : List Nat :=
  let n := c.toNat
  if n < 0x80 then [n]
  else if n < 0x800 then [0xC0 + n / 64, 0x80 + n % 64]
  else if n < 0x10000 then [0xE0 + n / 4096, 0x80 + (n / 64) % 64, 0x80 + n % 64]
  else [0xF0 + n / 262144, 0x80 + (n / 4096) % 64, 0x80 + (n / 64) % 64,
        0x80 + n % 64]

/-- `encodeURIComponent`. -/
def encodeURIComponent (s : String) : String :=
  String.mk (s.toList.flatMap (fun c =>
    if uriUnreserved c then [c]
    else (utf8Bytes c).flatMap (fun b => ['%', hexDigit (b / 16), hexDigit (b % 16)])))

/-- `fetchWithProxy(targetUrl)` from `App.tsx`, over a fetch oracle
mapping each request URL to a response or a network error.  Each relay is
tried in order with the percent-encoded target appended; a thrown fetch or
a non-`ok` response falls through to the next relay; exhaustion throws
`Error('All proxies failed')`. -/
def fetchWithProxy (fetchO : String → Except String JsResponse)
    (targetUrl : String) : Except String JsResponse :=
  go CORS_PROXIES
where
  go : List String → Except String JsResponse
    | [] => Except.error "All proxies failed"
    | proxy :: rest =>
        match fetchO (proxy ++ encodeURIComponent targetUrl) with
        | Except.ok r => if r.ok then Except.ok r else go rest
        | Except.error _ => go rest

/-! ## A concrete URL model

An executable model of the WHATWG `URL` constructor restricted to
`http(s)` URLs with already-lowercased scheme and host — the fragment the
extractor exercises.  It supports absolute URLs, protocol-relative,
root-relative and path-relative references with `.`/`..` resolution, and
`searchParams.get` with percent- and plus-decoding.  Exotic inputs
(other schemes, userinfo, IDN hosts …) are out of its scope and concrete
theorems below avoid them. -/

/-- A parsed `http(s)` URL. -/
structure ParsedUrl where
  scheme : String
  host : String
  path : String
  query : Option String
deriving DecidableEq

/-- Drop a `#fragment`. -/
def stripFragment (s : String) : String :=
  String.mk (s.toList.takeWhile (fun c => c != '#'))

/-- Parse an absolute `http(s)` URL. -/
def parseHttpUrl (s : String) : Option ParsedUrl :=
  let s' := stripFragment s
  let withScheme (scheme rest : String) : Option ParsedUrl :=
    let hostChars := rest.toList.takeWhile (fun c => c != '/' && c != '?')
    if hostChars.isEmpty then none
    else
      let afterHost := rest.toList.drop hostChars.length
      let pathChars := afterHost.takeWhile (fun c => c != '?')
      let queryChars := afterHost.drop pathChars.length
      some { scheme := scheme, host := String.mk hostChars,
             path := if pathChars.isEmpty then "/" else String.mk pathChars,
             query :=
               match queryChars with
               | [] => none
               | _ :: q => some (String.mk q) }
  if strStarts s' "https://" then withScheme "https" (strDrop s' 8)
  else if strStarts s' "http://" then withScheme "http" (strDrop s' 7)
  else none

/-- Resolve `.` and `..` path segments. -/
def removeDotSegments (path : String) : String :=
  let segs := jsSplitChar '/' (strDrop path 1)
  let out := segs.foldl
    (fun (acc : List String) seg =>
      if seg == "." then acc
      else if seg == ".." then acc.dropLast
      else acc ++ [seg]) []
  "/" ++ strJoin "/" out

/-- Serialize back to `href`. -/
def urlHref (u : ParsedUrl) : String :=
  u.scheme ++ "://" ++ u.host ++ u.path ++
    (match u.query with
     | some q => "?" ++ q
     | none => "")

/-- Split a relative reference into path part and query. -/
def splitRef (s : String) : String × Option String :=
  let cs := s.toList
  let p := cs.takeWhile (fun c => c != '?')
  match cs.drop p.length with
  | [] => (String.mk p, none)
  | _ :: q => (String.mk p, some (String.mk q))

/-- `new URL(input, base).href` in the model. -/
def browserResolve (input base : String) : Option String :=
  match parseHttpUrl input with
  | some u => some (urlHref { u with path := removeDotSegments u.path })
  | none =>
      match parseHttpUrl base with
      | none => none
      | some b =>
          let input' := stripFragment input
          if strStarts input' "//" then
            (parseHttpUrl (b.scheme ++ ":" ++ input')).map
              (fun u => urlHref { u with path := removeDotSegments u.path })
          else if input' == "" then some (urlHref b)
          else
            let pq := splitRef input'
            if strStarts input' "/" then
              some (urlHref { scheme := b.scheme, host := b.host,
                              path := removeDotSegments pq.1, query := pq.2 })
            else
              let dir := String.mk
                ((b.path.toList.reverse.dropWhile (fun c => c != '/')).reverse)
              some (urlHref { scheme := b.scheme, host := b.host,
                              path := removeDotSegments (dir ++ pq.1),
                              query := pq.2 })

/-- Value of a hex digit. -/
def hexVal (c : Char) : Option Nat :=
  let n := c.toNat
  if n ≥ 48 && n ≤ 57 then some (n - 48)
  else if n ≥ 97 && n ≤ 102 then some (n - 87)
  else if n ≥ 65 && n ≤ 70 then some (n - 55)
  else none

/-- `application/x-www-form-urlencoded` decoding of a query component
(`+` to space, `%XX` to the byte; ASCII fragment of the real decoder). -/
def formDecode : List Char → List Char
  | [] => []
  | '%' :: h1 :: h2 :: rest =>
      match hexVal h1, hexVal h2 with
      | some a, some b => Char.ofNat (16 * a + b) :: formDecode rest
      | _, _ => '%' :: formDecode (h1 :: h2 :: rest)
  | '+' :: rest => ' ' :: formDecode rest
  | c :: rest => c :: formDecode rest

/-- `new URL(s).searchParams.get(key)` in the model. -/
def browserGetParam (s key : String) : Option (Option String) :=
  match parseHttpUrl s with
  | none => none
  | some u =>
      some (
        match u.query with
        | none => none
        | some q =>
            ((jsSplitChar '&' q).filterMap (fun pair =>
              let cs := pair.toList
              let k := cs.takeWhile (fun c => c != '=')
              let v :=
                match cs.drop k.length with
                | [] => []
                | _ :: rest => rest
              if String.mk (formDecode k) == key
              then some (String.mk (formDecode v)) else none)).head?)

/-- The concrete URL model. -/
def browserUrl : UrlModel :=
  { resolve := browserResolve,
    hostname := fun s => (parseHttpUrl s).map (·.host),
    getParam := browserGetParam }

/-! ## Declarative regex semantics and matcher soundness

`Accepts r w` is the usual language semantics of a pattern; the lemmas
below show every candidate the engine returns — and every capture it
records — is justified by it.  They underpin the universally quantified
facts about what the field-extraction regexes can capture. -/

/-- Declarative acceptance. -/
inductive Accepts : RE → List Char → Prop where
  | eps : Accepts RE.eps []
  | lit {c c' : Char} : ciEq c' c = true → Accepts (RE.lit c) [c']
  | cls {neg atoms} {c' : Char} :
      ((atoms.any (atomMatch c')) != neg) = true → Accepts (RE.cls neg atoms) [c']
  | seq {a b w1 w2} : Accepts a w1 → Accepts b w2 → Accepts (RE.seq a b) (w1 ++ w2)
  | altL {a b w} : Accepts a w → Accepts (RE.alt a b) w
  | altR {a b w} : Accepts b w → Accepts (RE.alt a b) w
  | starNil {a} : Accepts (RE.star a) []
  | starCons {a w1 w2} :
      Accepts a w1 → Accepts (RE.star a) w2 → Accepts (RE.star a) (w1 ++ w2)
  | optSome {a w} : Accepts a w → Accepts (RE.opt a) w
  | optNone {a} : Accepts (RE.opt a) []
  | grp {g a w} : Accepts a w → Accepts (RE.grp g a) w

/-- The subexpressions carrying capture index `g`. -/
def groupsOf : RE → Nat → List RE
  | RE.grp g' a, g => (if g' == g then [a] else []) ++ groupsOf a g
  | RE.seq a b, g => groupsOf a g ++ groupsOf b g
  | RE.alt a b, g => groupsOf a g ++ groupsOf b g
  | RE.star a, g => groupsOf a g
  | RE.opt a, g => groupsOf a g
  | _, _ => []

/-- Every candidate one matcher level returns is accepted by the
declarative semantics on exactly the consumed prefix, provided the
star continuation is. -/
theorem reStep_sound {next : RE → List Char → Caps → List (Nat × Caps)}
    (hnext : ∀ r s caps p, p ∈ next r s caps → Accepts r (s.take p.1)) :
    ∀ (r : RE) (s : List Char) (caps0 : Caps) (p : Nat × Caps),
      p ∈ reStep next r s caps0 → Accepts r (s.take p.1) := by
  intro r
  induction r with
  | eps =>
      intro s caps0 p hp
      simp only [reStep, List.mem_singleton] at hp
      subst hp
      exact Accepts.eps
  | lit c =>
      intro s caps0 p hp
      match s with
      | [] => simp [reStep] at hp
      | c' :: t =>
          simp only [reStep] at hp
          by_cases h : ciEq c' c = true
          · simp [h] at hp
            subst hp
            simpa using Accepts.lit h
          · simp [h] at hp
  | cls neg atoms =>
      intro s caps0 p hp
      match s with
      | [] => simp [reStep] at hp
      | c' :: t =>
          simp only [reStep] at hp
          by_cases h : ((atoms.any (atomMatch c')) != neg) = true
          · simp [h] at hp
            subst hp
            simpa using Accepts.cls h
          · simp [h] at hp
  | seq a b iha ihb =>
      intro s caps0 p hp
      simp only [reStep, List.mem_flatMap, List.mem_map] at hp
      obtain ⟨p1, hp1, q, hq, rfl⟩ := hp
      rw [List.take_add s p1.1 q.1]
      exact Accepts.seq (iha s caps0 p1 hp1) (ihb (s.drop p1.1) p1.2 q hq)
  | alt a b iha ihb =>
      intro s caps0 p hp
      simp only [reStep, List.mem_append] at hp
      rcases hp with h | h
      · exact Accepts.altL (iha s caps0 p h)
      · exact Accepts.altR (ihb s caps0 p h)
  | star a iha =>
      intro s caps0 p hp
      simp only [reStep, List.mem_append] at hp
      rcases hp with hA | hB
      · rw [List.mem_flatMap] at hA
        obtain ⟨p1, hp1, hpf⟩ := hA
        by_cases h0 : (p1.1 == 0) = true
        · rw [if_pos h0] at hpf
          simp at hpf
        · rw [if_neg h0] at hpf
          rw [List.mem_map] at hpf
          obtain ⟨q, hq, rfl⟩ := hpf
          rw [List.take_add s p1.1 q.1]
          exact Accepts.starCons (iha s caps0 p1 hp1)
            (hnext (RE.star a) (s.drop p1.1) p1.2 q hq)
      · rw [List.mem_singleton] at hB
        subst hB
        exact Accepts.starNil
  | opt a iha =>
      intro s caps0 p hp
      simp only [reStep, List.mem_append, List.mem_singleton] at hp
      rcases hp with h | h
      · exact Accepts.optSome (iha s caps0 p h)
      · subst h
        exact Accepts.optNone
  | grp g a iha =>
      intro s caps0 p hp
      simp only [reStep, List.mem_map] at hp
      obtain ⟨q, hq, rfl⟩ := hp
      exact Accepts.grp (iha s caps0 q hq)

/-- Matcher soundness at every fuel. -/
theorem reMatches_sound (fuel : Nat) :
    ∀ (r : RE) (s : List Char) (caps0 : Caps) (p : Nat × Caps),
      p ∈ reMatches fuel r s caps0 → Accepts r (s.take p.1) := by
  induction fuel with
  | zero => exact reStep_sound (fun r s caps p hp => by simp at hp)
  | succ n ih => exact reStep_sound ih

/-- One matcher level only prepends to the capture store. -/
theorem reStep_caps_persist {next : RE → List Char → Caps → List (Nat × Caps)}
    (hnext : ∀ r s caps p, p ∈ next r s caps →
      ∀ g w, capGet caps g = some w → ∃ w', capGet p.2 g = some w') :
    ∀ (r : RE) (s : List Char) (caps0 : Caps) (p : Nat × Caps),
      p ∈ reStep next r s caps0 →
      ∀ g w, capGet caps0 g = some w → ∃ w', capGet p.2 g = some w' := by
  intro r
  induction r with
  | eps =>
      intro s caps0 p hp g w hw
      simp only [reStep, List.mem_singleton] at hp
      subst hp
      exact ⟨w, hw⟩
  | lit c =>
      intro s caps0 p hp g w hw
      match s with
      | [] => simp [reStep] at hp
      | c' :: t =>
          simp only [reStep] at hp
          by_cases h : ciEq c' c = true
          · simp [h] at hp
            subst hp
            exact ⟨w, hw⟩
          · simp [h] at hp
  | cls neg atoms =>
      intro s caps0 p hp g w hw
      match s with
      | [] => simp [reStep] at hp
      | c' :: t =>
          simp only [reStep] at hp
          by_cases h : ((atoms.any (atomMatch c')) != neg) = true
          · simp [h] at hp
            subst hp
            exact ⟨w, hw⟩
          · simp [h] at hp
  | seq a b iha ihb =>
      intro s caps0 p hp g w hw
      simp only [reStep, List.mem_flatMap, List.mem_map] at hp
      obtain ⟨p1, hp1, q, hq, rfl⟩ := hp
      obtain ⟨w1, hw1⟩ := iha s caps0 p1 hp1 g w hw
      exact ihb (s.drop p1.1) p1.2 q hq g w1 hw1
  | alt a b iha ihb =>
      intro s caps0 p hp g w hw
      simp only [reStep, List.mem_append] at hp
      rcases hp with h | h
      · exact iha s caps0 p h g w hw
      · exact ihb s caps0 p h g w hw
  | star a iha =>
      intro s caps0 p hp g w hw
      simp only [reStep, List.mem_append] at hp
      rcases hp with hA | hB
      · rw [List.mem_flatMap] at hA
        obtain ⟨p1, hp1, hpf⟩ := hA
        by_cases h0 : (p1.1 == 0) = true
        · rw [if_pos h0] at hpf
          simp at hpf
        · rw [if_neg h0] at hpf
          rw [List.mem_map] at hpf
          obtain ⟨q, hq, rfl⟩ := hpf
          obtain ⟨w1, hw1⟩ := iha s caps0 p1 hp1 g w hw
          exact hnext (RE.star a) (s.drop p1.1) p1.2 q hq g w1 hw1
      · rw [List.mem_singleton] at hB
        subst hB
        exact ⟨w, hw⟩
  | opt a iha =>
      intro s caps0 p hp g w hw
      simp only [reStep, List.mem_append, List.mem_singleton] at hp
      rcases hp with h | h
      · exact iha s caps0 p h g w hw
      · subst h
        exact ⟨w, hw⟩
  | grp g' a iha =>
      intro s caps0 p hp g w hw
      simp only [reStep, List.mem_map] at hp
      obtain ⟨q, hq, rfl⟩ := hp
      by_cases hg : (g' == g) = true
      · exact ⟨s.take q.1, by simp [capGet, List.find?, hg]⟩
      · obtain ⟨w', hw'⟩ := iha s caps0 q hq g w hw
        exact ⟨w', by simpa [capGet, List.find?, hg] using hw'⟩

/-- Capture persistence at every fuel. -/
theorem reMatches_caps_persist (fuel : Nat) :
    ∀ (r : RE) (s : List Char) (caps0 : Caps) (p : Nat × Caps),
      p ∈ reMatches fuel r s caps0 →
      ∀ g w, capGet caps0 g = some w → ∃ w', capGet p.2 g = some w' := by
  induction fuel with
  | zero => exact reStep_caps_persist (fun r s caps p hp => by simp at hp)
  | succ n ih => exact reStep_caps_persist ih

/-- Every capture one matcher level reports either was present on entry
or is a word accepted by one of the pattern's subexpressions with that
index. -/
theorem reStep_caps_sound {next : RE → List Char → Caps → List (Nat × Caps)}
    (hnextS : ∀ r s caps p, p ∈ next r s caps → Accepts r (s.take p.1))
    (hnext : ∀ r s caps p, p ∈ next r s caps →
      ∀ g w, capGet p.2 g = some w →
        capGet caps g = some w ∨ ∃ sub ∈ groupsOf r g, Accepts sub w) :
    ∀ (r : RE) (s : List Char) (caps0 : Caps) (p : Nat × Caps),
      p ∈ reStep next r s caps0 →
      ∀ g w, capGet p.2 g = some w →
        capGet caps0 g = some w ∨ ∃ sub ∈ groupsOf r g, Accepts sub w := by
  intro r
  induction r with
  | eps =>
      intro s caps0 p hp g w hw
      simp only [reStep, List.mem_singleton] at hp
      subst hp
      exact Or.inl hw
  | lit c =>
      intro s caps0 p hp g w hw
      match s with
      | [] => simp [reStep] at hp
      | c' :: t =>
          simp only [reStep] at hp
          by_cases h : ciEq c' c = true
          · simp [h] at hp
            subst hp
            exact Or.inl hw
          · simp [h] at hp
  | cls neg atoms =>
      intro s caps0 p hp g w hw
      match s with
      | [] => simp [reStep] at hp
      | c' :: t =>
          simp only [reStep] at hp
          by_cases h : ((atoms.any (atomMatch c')) != neg) = true
          · simp [h] at hp
            subst hp
            exact Or.inl hw
          · simp [h] at hp
  | seq a b iha ihb =>
      intro s caps0 p hp g w hw
      simp only [reStep, List.mem_flatMap, List.mem_map] at hp
      obtain ⟨p1, hp1, q, hq, rfl⟩ := hp
      rcases ihb (s.drop p1.1) p1.2 q hq g w hw with h | ⟨sub, hsub, hacc⟩
      · rcases iha s caps0 p1 hp1 g w h with h' | ⟨sub, hsub, hacc⟩
        · exact Or.inl h'
        · exact Or.inr ⟨sub, by simp [groupsOf, hsub], hacc⟩
      · exact Or.inr ⟨sub, by simp [groupsOf, hsub], hacc⟩
  | alt a b iha ihb =>
      intro s caps0 p hp g w hw
      simp only [reStep, List.mem_append] at hp
      rcases hp with h | h
      · rcases iha s caps0 p h g w hw with h' | ⟨sub, hsub, hacc⟩
        · exact Or.inl h'
        · exact Or.inr ⟨sub, by simp [groupsOf, hsub], hacc⟩
      · rcases ihb s caps0 p h g w hw with h' | ⟨sub, hsub, hacc⟩
        · exact Or.inl h'
        · exact Or.inr ⟨sub, by simp [groupsOf, hsub], hacc⟩
  | star a iha =>
      intro s caps0 p hp g w hw
      simp only [reStep, List.mem_append] at hp
      rcases hp with hA | hB
      · rw [List.mem_flatMap] at hA
        obtain ⟨p1, hp1, hpf⟩ := hA
        by_cases h0 : (p1.1 == 0) = true
        · rw [if_pos h0] at hpf
          simp at hpf
        · rw [if_neg h0] at hpf
          rw [List.mem_map] at hpf
          obtain ⟨q, hq, rfl⟩ := hpf
          rcases hnext (RE.star a) (s.drop p1.1) p1.2 q hq g w hw with
            h | ⟨sub, hsub, hacc⟩
          · rcases iha s caps0 p1 hp1 g w h with h' | ⟨sub, hsub, hacc⟩
            · exact Or.inl h'
            · exact Or.inr ⟨sub, by simpa [groupsOf] using hsub, hacc⟩
          · exact Or.inr ⟨sub, by simpa [groupsOf] using hsub, hacc⟩
      · rw [List.mem_singleton] at hB
        subst hB
        exact Or.inl hw
  | opt a iha =>
      intro s caps0 p hp g w hw
      simp only [reStep, List.mem_append, List.mem_singleton] at hp
      rcases hp with h | h
      · rcases iha s caps0 p h g w hw with h' | ⟨sub, hsub, hacc⟩
        · exact Or.inl h'
        · exact Or.inr ⟨sub, by simpa [groupsOf] using hsub, hacc⟩
      · subst h
        exact Or.inl hw
  | grp g' a iha =>
      intro s caps0 p hp g w hw
      simp only [reStep, List.mem_map] at hp
      obtain ⟨q, hq, rfl⟩ := hp
      by_cases hg : (g' == g) = true
      · have hfind : capGet ((g', s.take q.1) :: q.2) g = some (s.take q.1) := by
          simp [capGet, List.find?, hg]
        rw [hfind] at hw
        injection hw with hw
        subst hw
        exact Or.inr ⟨a, by simp [groupsOf, hg],
          reStep_sound hnextS a s caps0 q hq⟩
      · have hfind : capGet ((g', s.take q.1) :: q.2) g = capGet q.2 g := by
          simp [capGet, List.find?, hg]
        rw [hfind] at hw
        rcases iha s caps0 q hq g w hw with h' | ⟨sub, hsub, hacc⟩
        · exact Or.inl h'
        · exact Or.inr ⟨sub, by simp [groupsOf, hsub, hg], hacc⟩

/-- Capture soundness at every fuel. -/
theorem reMatches_caps_sound (fuel : Nat) :
    ∀ (r : RE) (s : List Char) (caps0 : Caps) (p : Nat × Caps),
      p ∈ reMatches fuel r s caps0 →
      ∀ g w, capGet p.2 g = some w →
        capGet caps0 g = some w ∨ ∃ sub ∈ groupsOf r g, Accepts sub w := by
  induction fuel with
  | zero =>
      exact reStep_caps_sound (fun r s caps p hp => by simp at hp)
        (fun r s caps p hp => by simp at hp)
  | succ n ih => exact reStep_caps_sound (reMatches_sound n) ih

/-- Which groups are written by every successful match (a group under a
quantifier or alternation branch may be skipped; one in mandatory
sequence position may not). -/
def requiresGroup : RE → Nat → Bool
  | RE.grp g' a, g => g' == g || requiresGroup a g
  | RE.seq a b, g => requiresGroup a g || requiresGroup b g
  | RE.alt a b, g => requiresGroup a g && requiresGroup b g
  | _, _ => false

/-- A required group is set in every candidate one matcher level
returns. -/
theorem reStep_caps_complete {next : RE → List Char → Caps → List (Nat × Caps)}
    (hnextP : ∀ r s caps p, p ∈ next r s caps →
      ∀ g w, capGet caps g = some w → ∃ w', capGet p.2 g = some w') :
    ∀ (r : RE) (s : List Char) (caps0 : Caps) (p : Nat × Caps),
      p ∈ reStep next r s caps0 →
      ∀ g, requiresGroup r g = true → ∃ w, capGet p.2 g = some w := by
  intro r
  induction r with
  | eps => intro s caps0 p _ g hreq; simp [requiresGroup] at hreq
  | lit c => intro s caps0 p _ g hreq; simp [requiresGroup] at hreq
  | cls neg atoms => intro s caps0 p _ g hreq; simp [requiresGroup] at hreq
  | seq a b iha ihb =>
      intro s caps0 p hp g hreq
      simp only [reStep, List.mem_flatMap, List.mem_map] at hp
      obtain ⟨p1, hp1, q, hq, rfl⟩ := hp
      rw [requiresGroup, Bool.or_eq_true] at hreq
      rcases hreq with ha | hb
      · obtain ⟨w1, hw1⟩ := iha s caps0 p1 hp1 g ha
        exact reStep_caps_persist hnextP b (s.drop p1.1) p1.2 q hq g w1 hw1
      · exact ihb (s.drop p1.1) p1.2 q hq g hb
  | alt a b iha ihb =>
      intro s caps0 p hp g hreq
      simp only [reStep, List.mem_append] at hp
      rw [requiresGroup, Bool.and_eq_true] at hreq
      rcases hp with h | h
      · exact iha s caps0 p h g hreq.1
      · exact ihb s caps0 p h g hreq.2
  | star a iha => intro s caps0 p _ g hreq; simp [requiresGroup] at hreq
  | opt a iha => intro s caps0 p _ g hreq; simp [requiresGroup] at hreq
  | grp g' a iha =>
      intro s caps0 p hp g hreq
      simp only [reStep, List.mem_map] at hp
      obtain ⟨q, hq, rfl⟩ := hp
      by_cases hg : (g' == g) = true
      · exact ⟨s.take q.1, by simp [capGet, List.find?, hg]⟩
      · rw [requiresGroup, Bool.or_eq_true] at hreq
        rcases hreq with h | h
        · exact absurd h hg
        · obtain ⟨w, hw⟩ := iha s caps0 q hq g h
          exact ⟨w, by simpa [capGet, List.find?, hg] using hw⟩

/-- Required-group completeness at every fuel. -/
theorem reMatches_caps_complete (fuel : Nat) :
    ∀ (r : RE) (s : List Char) (caps0 : Caps) (p : Nat × Caps),
      p ∈ reMatches fuel r s caps0 →
      ∀ g, requiresGroup r g = true → ∃ w, capGet p.2 g = some w := by
  induction fuel with
  | zero => exact reStep_caps_complete (fun r s caps p hp => by simp at hp)
  | succ n ih =>
      exact reStep_caps_complete (reMatches_caps_persist n)

/-- A successful scan found a successful match attempt at some index. -/
theorem firstMatchFrom_some (r : RE) (s : List Char) :
    ∀ i m, firstMatchFrom r s i = some m → ∃ j, matchAt r s j = some m := by
  have key : ∀ fuel i m, fmfAux r s fuel i = some m → ∃ j, matchAt r s j = some m := by
    intro fuel
    induction fuel with
    | zero =>
        intro i m h
        simp [fmfAux] at h
    | succ k ih =>
        intro i m h
        rw [fmfAux] at h
        by_cases hi : s.length < i
        · simp [hi] at h
        · rw [if_neg hi] at h
          cases hcase : matchAt r s i with
          | some m' =>
              rw [hcase] at h
              exact ⟨i, by rw [hcase]; exact h⟩
          | none =>
              rw [hcase] at h
              by_cases hend : (i == s.length) = true
              · simp [hend] at h
              · rw [if_neg hend] at h
                exact ih (i + 1) m h
  intro i m h
  exact key (s.length + 1 - i) i m h

/-- What `str.match(re)` can put in a required capture group: a word in
the language of the group's subexpression. -/
theorem jsMatch_group_spec {r : RE} {str : String} {m : MatchRes} {g : Nat}
    (h : jsMatch r str = some m) (hreq : requiresGroup r g = true) :
    ∃ w, capGet m.caps g = some w ∧ ∃ sub ∈ groupsOf r g, Accepts sub w := by
  obtain ⟨j, hj⟩ := firstMatchFrom_some r str.toList 0 m h
  rw [matchAt] at hj
  cases hh : (reMatches (str.toList.length + 1) r (str.toList.drop j) []).head? with
  | none => rw [hh] at hj; simp at hj
  | some p =>
      rw [hh] at hj
      simp only [Option.map_some'] at hj
      have hmem : p ∈ reMatches (str.toList.length + 1) r (str.toList.drop j) [] := by
        cases hl : reMatches (str.toList.length + 1) r (str.toList.drop j) [] with
        | nil => rw [hl] at hh; simp at hh
        | cons x t =>
            rw [hl] at hh
            simp only [List.head?_cons, Option.some_inj] at hh
            rw [← hh]
            exact List.mem_cons_self x t
      have hcaps : m.caps = p.2 := by
        injection hj with hj
        rw [← hj]
      obtain ⟨w, hw⟩ := reMatches_caps_complete _ r _ [] p hmem g hreq
      refine ⟨w, by rw [hcaps]; exact hw, ?_⟩
      rcases reMatches_caps_sound _ r _ [] p hmem g w hw with h0 | hok
      · simp [capGet] at h0
      · exact hok

/-- A word accepted by a literal chain agrees with it up to case. -/
theorem accepts_lits_list :
    ∀ (cs : List Char) (w : List Char),
      Accepts (cs.foldr (fun c r => RE.seq (RE.lit c) r) RE.eps) w →
      w.map Char.toLower = cs.map Char.toLower := by
  intro cs
  induction cs with
  | nil =>
      intro w h
      cases h
      rfl
  | cons c cs ih =>
      intro w h
      cases h with
      | seq h1 h2 =>
          cases h1 with
          | lit hc =>
              rename_i c'
              have hcc : c'.toLower = c.toLower := by
                rw [ciEq] at hc
                exact eq_of_beq hc
              simp only [List.singleton_append, List.map_cons]
              rw [hcc, ih _ h2]

/-- Every character of a word accepted by a starred class satisfies the
class. -/
theorem accepts_star_cls {neg : Bool} {atoms : List CAtom} :
    ∀ {r w}, Accepts r w → r = RE.star (RE.cls neg atoms) →
      ∀ c ∈ w, ((atoms.any (atomMatch c)) != neg) = true := by
  intro r w h
  induction h with
  | starNil => intro _ c hc; cases hc
  | starCons h1 _ ih1 ih2 =>
      intro heq c hc
      cases heq
      cases h1 with
      | cls hcls =>
          rcases List.mem_append.mp hc with h | h
          · rcases List.mem_singleton.mp h with rfl
            exact hcls
          · exact ih2 rfl c h
  | _ => intro heq; cases heq

/-- `allDigits s`: `s` consists of ASCII digits only. -/
def allDigits (s : String) : Bool := s.toList.all Char.isDigit

/-- What the `font-weight` capture group can hold: a nonempty digit
string, or one of the four keywords up to case. -/
theorem accepts_weightBody {w : List Char} (h : Accepts weightBody w) :
    (w ≠ [] ∧ w.all Char.isDigit = true) ∨
    w.map Char.toLower = "normal".toList ∨ w.map Char.toLower = "bold".toList ∨
    w.map Char.toLower = "lighter".toList ∨ w.map Char.toLower = "bolder".toList := by
  rw [weightBody] at h
  cases h with
  | altL h =>
      left
      rw [rplus] at h
      cases h with
      | seq h1 h2 =>
          rename_i w1 w2
          cases h1 with
          | cls hc =>
              rename_i c'
              have hd : c'.isDigit = true := by
                simpa [atomMatch] using hc
              have hrest := accepts_star_cls h2 rfl
              constructor
              · simp
              · rw [List.all_eq_true]
                intro c hc'
                rcases List.mem_append.mp hc' with h | h
                · rcases List.mem_singleton.mp h with rfl
                  exact hd
                · simpa [atomMatch] using hrest c h
  | altR h =>
      right
      cases h with
      | altL h => exact Or.inl (by simpa using accepts_lits_list _ _ h)
      | altR h =>
          cases h with
          | altL h => exact Or.inr (Or.inl (by simpa using accepts_lits_list _ _ h))
          | altR h =>
              cases h with
              | altL h =>
                  exact Or.inr (Or.inr (Or.inl (by simpa using accepts_lits_list _ _ h)))
              | altR h =>
                  exact Or.inr (Or.inr (Or.inr (by simpa using accepts_lits_list _ _ h)))

/-- What the `font-style` capture group can hold: one of the three
keywords up to case. -/
theorem accepts_styleBody {w : List Char} (h : Accepts styleBody w) :
    w.map Char.toLower = "normal".toList ∨ w.map Char.toLower = "italic".toList ∨
    w.map Char.toLower = "oblique".toList := by
  rw [styleBody] at h
  cases h with
  | altL h => exact Or.inl (by simpa using accepts_lits_list _ _ h)
  | altR h =>
      cases h with
      | altL h => exact Or.inr (Or.inl (by simpa using accepts_lits_list _ _ h))
      | altR h => exact Or.inr (Or.inr (by simpa using accepts_lits_list _ _ h))

set_option maxRecDepth 8000

/-- `weightRe` always writes capture 1. -/
theorem requiresGroup_weightRe : requiresGroup weightRe 1 = true := by decide

/-- The only capture-1 subexpression of `weightRe` is `weightBody`. -/
theorem groupsOf_weightRe : groupsOf weightRe 1 = [weightBody] := by decide

/-- `styleRe` always writes capture 1. -/
theorem requiresGroup_styleRe : requiresGroup styleRe 1 = true := by decide

/-- The only capture-1 subexpression of `styleRe` is `styleBody`. -/
theorem groupsOf_styleRe : groupsOf styleRe 1 = [styleBody] := by decide

/-- The weight field of a block is `'400'` (default), a nonempty digit
string, or a keyword up to case. -/
theorem weightOf_spec (block : String) :
    weightOf block = "400" ∨
    (allDigits (weightOf block) = true ∧ weightOf block ≠ "") ∨
    jsToLower (weightOf block) ∈ (["normal", "bold", "lighter", "bolder"] : List String) := by
  cases hjs : jsMatch weightRe block with
  | none => exact Or.inl (by rw [weightOf, hjs])
  | some m =>
      have hwo : weightOf block = groupStr m 1 := by rw [weightOf, hjs]
      rw [hwo]
      obtain ⟨w, hcap, sub, hsub, hacc⟩ :=
        jsMatch_group_spec hjs requiresGroup_weightRe
      have hsub' : sub = weightBody := by
        rw [groupsOf_weightRe] at hsub
        exact List.mem_singleton.mp hsub
      subst hsub'
      have hg : groupStr m 1 = String.mk w := by
        rw [groupStr, hcap]
        rfl
      rw [hg]
      rcases accepts_weightBody hacc with ⟨hne, hdig⟩ | hk | hk | hk | hk
      · refine Or.inr (Or.inl ⟨hdig, ?_⟩)
        intro hcon
        exact hne (by simpa using congrArg String.toList hcon)
      all_goals
        refine Or.inr (Or.inr ?_)
        rw [jsToLower]
        simp only [String.toList]
        rw [hk]
        simp

/-- ASCII lowering fixes digits. -/
theorem toLower_of_isDigit {c : Char} (h : c.isDigit = true) : c.toLower = c := by
  simp only [Char.isDigit, Bool.and_eq_true, decide_eq_true_eq] at h
  obtain ⟨ha, hb⟩ := h
  simp only [Char.toLower]
  rw [if_neg]
  intro hcon
  have h57 : c.toNat ≤ 57 := hb
  omega

/-- Lowercasing a digit string is the identity. -/
theorem jsToLower_of_allDigits {s : String} (h : allDigits s = true) :
    jsToLower s = s := by
  obtain ⟨l⟩ := s
  rw [jsToLower]
  congr 1
  rw [allDigits, List.all_eq_true] at h
  exact (List.map_congr_left (fun c hc => toLower_of_isDigit (h c hc))).trans
    (List.map_id l)

/-- A nonempty all-digit string is not one of the weight keywords. -/
theorem digits_ne_keyword {s k : String} (h : allDigits s = true) (hne : s ≠ "")
    (hk : ∃ c rest, k.toList = c :: rest ∧ c.isDigit = false) : k ≠ s := by
  obtain ⟨c, rest, hkl, hcd⟩ := hk
  intro hcon
  subst hcon
  rw [allDigits, List.all_eq_true, hkl] at h
  have := h c (List.mem_cons_self c rest)
  rw [hcd] at this
  cases this

/-- `normalizeWeight` passes numeric weights through unchanged. -/
theorem normalizeWeight_of_digits {s : String} (h : allDigits s = true)
    (hne : s ≠ "") : normalizeWeight s = s := by
  rw [normalizeWeight, jsToLower_of_allDigits h]
  have hfind : weightMap.find? (fun p => p.1 == s) = none := by
    rw [List.find?_eq_none]
    intro p hp
    rw [weightMap] at hp
    fin_cases hp <;>
      simpa using digits_ne_keyword h hne (by exact ⟨_, _, rfl, by decide⟩)
  rw [hfind]

/-- The normalized weight of any block is a nonempty digit string. -/
theorem normalizeWeight_weightOf (block : String) :
    allDigits (normalizeWeight (weightOf block)) = true ∧
    normalizeWeight (weightOf block) ≠ "" := by
  rcases weightOf_spec block with h | ⟨hd, hne⟩ | hk
  · rw [h]
    constructor
    · decide
    · decide
  · rw [normalizeWeight_of_digits hd hne]
    exact ⟨hd, hne⟩
  · simp only [List.mem_cons, List.not_mem_nil, or_false] at hk
    rcases hk with hk | hk | hk | hk
    · rw [normalizeWeight, hk]
      rw [show weightMap.find? (fun p => p.1 == "normal") = some ("normal", "400")
        from by decide]
      refine ⟨?_, ?_⟩
      · show allDigits "400" = true
        decide
      · show ("400" : String) ≠ ""
        decide
    · rw [normalizeWeight, hk]
      rw [show weightMap.find? (fun p => p.1 == "bold") = some ("bold", "700")
        from by decide]
      refine ⟨?_, ?_⟩
      · show allDigits "700" = true
        decide
      · show ("700" : String) ≠ ""
        decide
    · rw [normalizeWeight, hk]
      rw [show weightMap.find? (fun p => p.1 == "lighter") = some ("lighter", "300")
        from by decide]
      refine ⟨?_, ?_⟩
      · show allDigits "300" = true
        decide
      · show ("300" : String) ≠ ""
        decide
    · rw [normalizeWeight, hk]
      rw [show weightMap.find? (fun p => p.1 == "bolder") = some ("bolder", "700")
        from by decide]
      refine ⟨?_, ?_⟩
      · show allDigits "700" = true
        decide
      · show ("700" : String) ≠ ""
        decide

/-- The style field of a block is one of the three keywords up to case. -/
theorem styleOf_spec (block : String) :
    jsToLower (styleOf block) ∈ (["normal", "italic", "oblique"] : List String) := by
  cases hjs : jsMatch styleRe block with
  | none =>
      have : styleOf block = "normal" := by rw [styleOf, hjs]
      rw [this]
      decide
  | some m =>
      have hso : styleOf block = groupStr m 1 := by rw [styleOf, hjs]
      rw [hso]
      obtain ⟨w, hcap, sub, hsub, hacc⟩ := jsMatch_group_spec hjs requiresGroup_styleRe
      have hsub' : sub = styleBody := by
        rw [groupsOf_styleRe] at hsub
        exact List.mem_singleton.mp hsub
      subst hsub'
      have hg : groupStr m 1 = String.mk w := by
        rw [groupStr, hcap]
        rfl
      rw [hg]
      rcases accepts_styleBody hacc with hk | hk | hk <;>
        · rw [jsToLower]
          simp only [String.toList]
          rw [hk]
          simp

/-! ## Provenance of emitted descriptors -/

/-- Generic fold lemma: an element of a fold is in the seed or justified
by some step input. -/
theorem foldl_mem_or {α β : Type} {step : List α → β → List α} {Q : β → α → Prop}
    (hstep : ∀ fs x d, d ∈ step fs x → d ∈ fs ∨ Q x d) :
    ∀ (l : List β) (fs : List α) (d : α),
      d ∈ l.foldl step fs → d ∈ fs ∨ ∃ x ∈ l, Q x d := by
  intro l
  induction l with
  | nil => intro fs d hd; exact Or.inl hd
  | cons x xs ih =>
      intro fs d hd
      rw [List.foldl_cons] at hd
      rcases ih (step fs x) d hd with h | ⟨y, hy, hq⟩
      · rcases hstep fs x d h with h' | hq
        · exact Or.inl h'
        · exact Or.inr ⟨x, List.mem_cons_self x xs, hq⟩
      · exact Or.inr ⟨y, List.mem_cons_of_mem x hy, hq⟩

/-- A descriptor built by `mkResolved` records the resolved URL, the
hostname source, and the given fields verbatim. -/
theorem mkResolved_spec {m : UrlModel} {baseUrl family weight style fontUrl format : String}
    {d : FontInfo} (h : mkResolved m baseUrl family weight style fontUrl format = some d) :
    d.family = family ∧ d.weight = normalizeWeight weight ∧ d.style = style ∧
    d.format = some format ∧ d.url = m.resolve fontUrl baseUrl ∧ d.url ≠ none := by
  rw [mkResolved] at h
  cases hr : m.resolve fontUrl baseUrl with
  | none => rw [hr] at h; simp at h
  | some fullUrl =>
      rw [hr] at h
      cases hh : m.hostname baseUrl with
      | none => rw [hh] at h; simp at h
      | some host =>
          rw [hh] at h
          simp only [Option.some_bind, Option.map_some', Option.some_inj] at h
          subst h
          exact ⟨rfl, rfl, rfl, rfl, rfl, by simp⟩

/-- Membership through `pushResolved`. -/
theorem mem_pushResolved {m : UrlModel} {baseUrl family weight style fontUrl format : String}
    {fonts : List FontInfo} {d : FontInfo}
    (h : d ∈ pushResolved m baseUrl family weight style fontUrl format fonts) :
    d ∈ fonts ∨ mkResolved m baseUrl family weight style fontUrl format = some d := by
  rw [pushResolved] at h
  rcases List.mem_append.mp h with h | h
  · exact Or.inl h
  · cases hr : mkResolved m baseUrl family weight style fontUrl format with
    | none => rw [hr] at h; simp at h
    | some v =>
        rw [hr] at h
        simp only [Option.toList_some, List.mem_singleton] at h
        exact Or.inr (congrArg some h.symm)

/-- Membership through the `url() format()` pass. -/
theorem mem_pairPass {m : UrlModel} {baseUrl family weight style srcValue : String}
    {fonts : List FontInfo} {d : FontInfo}
    (h : d ∈ pairPass m baseUrl family weight style srcValue fonts) :
    d ∈ fonts ∨ ∃ mt ∈ execAll urlFormatRe srcValue,
      mkResolved m baseUrl family weight style (groupStr mt 1)
        (jsToLower (groupStr mt 2)) = some d := by
  rw [pairPass] at h
  exact @foldl_mem_or FontInfo MatchRes
    (fun fs mt => pushResolved m baseUrl family weight style (groupStr mt 1)
      (jsToLower (groupStr mt 2)) fs)
    (fun mt d' => mkResolved m baseUrl family weight style (groupStr mt 1)
      (jsToLower (groupStr mt 2)) = some d')
    (fun fs mt d' hd' => mem_pushResolved hd')
    (execAll urlFormatRe srcValue) fonts d h

/-- Membership through the bare-`url()` pass. -/
theorem mem_barePass {m : UrlModel} {baseUrl family weight style srcValue : String}
    {fonts : List FontInfo} {d : FontInfo}
    (h : d ∈ barePass m baseUrl family weight style srcValue fonts) :
    d ∈ fonts ∨ ∃ mt ∈ execAll simpleUrlRe srcValue,
      mkResolved m baseUrl family weight style (groupStr mt 1)
        (getFormatFromUrl (groupStr mt 1)) = some d := by
  rw [barePass] at h
  refine @foldl_mem_or FontInfo MatchRes
    (fun fs mt =>
      if urlAlreadySeen fs (groupStr mt 1) then fs
      else pushResolved m baseUrl family weight style (groupStr mt 1)
        (getFormatFromUrl (groupStr mt 1)) fs)
    (fun mt d' => mkResolved m baseUrl family weight style (groupStr mt 1)
      (getFormatFromUrl (groupStr mt 1)) = some d')
    (fun fs mt d' hd' => ?_)
    (execAll simpleUrlRe srcValue) fonts d h
  dsimp only at hd'
  by_cases hseen : urlAlreadySeen fs (groupStr mt 1) = true
  · rw [if_pos hseen] at hd'
    exact Or.inl hd'
  · rw [if_neg hseen] at hd'
    exact mem_pushResolved hd'

/-- Membership through one block: a new descriptor carries the block's
extracted family, normalized weight and style, and a resolved URL with a
format from one of the two passes. -/
theorem mem_processBlock {m : UrlModel} {baseUrl : String} {fonts : List FontInfo}
    {block : String} {d : FontInfo}
    (h : d ∈ processBlock m baseUrl fonts block) :
    d ∈ fonts ∨
    (d.family = familyOf block ∧ d.weight = normalizeWeight (weightOf block) ∧
     d.style = styleOf block) := by
  rw [processBlock] at h
  cases hsrc : srcOf block with
  | none => rw [hsrc] at h; exact Or.inl h
  | some srcValue =>
      rw [hsrc] at h
      rcases mem_barePass h with h' | ⟨mt, hmt, hmk⟩
      · rcases mem_pairPass h' with h'' | ⟨mt, hmt, hmk⟩
        · exact Or.inl h''
        · obtain ⟨h1, h2, h3, _⟩ := mkResolved_spec hmk
          exact Or.inr ⟨h1, h2, h3⟩
      · obtain ⟨h1, h2, h3, _⟩ := mkResolved_spec hmk
        exact Or.inr ⟨h1, h2, h3⟩

/-- Membership through the whole parser. -/
theorem mem_parseFontFaces {m : UrlModel} {cssText baseUrl : String} {d : FontInfo}
    (h : d ∈ parseFontFaces m cssText baseUrl) :
    ∃ block ∈ fontFaceBlocks cssText,
      d.family = familyOf block ∧ d.weight = normalizeWeight (weightOf block) ∧
      d.style = styleOf block := by
  rw [parseFontFaces] at h
  rcases @foldl_mem_or FontInfo String (processBlock m baseUrl)
      (fun block d' => d'.family = familyOf block ∧
        d'.weight = normalizeWeight (weightOf block) ∧ d'.style = styleOf block)
      (fun fs block d' hd' => mem_processBlock hd')
      (fontFaceBlocks cssText) [] d h with h' | hq
  · cases h'
  · exact hq

/-- A fold of optional appends is the seed plus a `filterMap`. -/
theorem foldl_append_filterMap {α β : Type} (f : β → Option α) :
    ∀ (l : List β) (fs : List α),
      l.foldl (fun acc x => acc ++ (f x).toList) fs = fs ++ l.filterMap f := by
  intro l
  induction l with
  | nil => intro fs; simp
  | cons x xs ih =>
      intro fs
      rw [List.foldl_cons, ih, List.filterMap_cons]
      cases f x <;> simp

/-- The `url() format()` pass appends exactly one descriptor per
resolvable pair, in order, built by `mkResolved` with the declared
lowercased format. -/
theorem pairPass_eq (m : UrlModel) (baseUrl family weight style srcValue : String)
    (fonts : List FontInfo) :
    pairPass m baseUrl family weight style srcValue fonts =
      fonts ++ (execAll urlFormatRe srcValue).filterMap
        (fun mt => mkResolved m baseUrl family weight style (groupStr mt 1)
          (jsToLower (groupStr mt 2))) := by
  rw [pairPass]
  have : ∀ (l : List MatchRes) (fs : List FontInfo),
      l.foldl (fun fs mt => pushResolved m baseUrl family weight style
        (groupStr mt 1) (jsToLower (groupStr mt 2)) fs) fs =
      fs ++ l.filterMap (fun mt => mkResolved m baseUrl family weight style
        (groupStr mt 1) (jsToLower (groupStr mt 2))) := by
    intro l
    induction l with
    | nil => intro fs; simp
    | cons x xs ih =>
        intro fs
        rw [List.foldl_cons, ih, List.filterMap_cons, pushResolved]
        cases mkResolved m baseUrl family weight style (groupStr x 1)
          (jsToLower (groupStr x 2)) <;> simp
  exact this _ fonts

/-- The bare-`url()` pass only appends, and everything it appends is an
extension-inferred descriptor for some bare url of the `src` value. -/
theorem barePass_append (m : UrlModel) (baseUrl family weight style srcValue : String)
    (fonts : List FontInfo) :
    ∃ added, barePass m baseUrl family weight style srcValue fonts = fonts ++ added ∧
      ∀ d ∈ added, ∃ mt ∈ execAll simpleUrlRe srcValue,
        mkResolved m baseUrl family weight style (groupStr mt 1)
          (getFormatFromUrl (groupStr mt 1)) = some d := by
  rw [barePass]
  have : ∀ (l : List MatchRes) (fs : List FontInfo),
      ∃ added, (l.foldl (fun fs mt =>
          let fontUrl := groupStr mt 1
          if urlAlreadySeen fs fontUrl then fs
          else pushResolved m baseUrl family weight style fontUrl
            (getFormatFromUrl fontUrl) fs) fs) = fs ++ added ∧
        ∀ d ∈ added, ∃ mt ∈ l,
          mkResolved m baseUrl family weight style (groupStr mt 1)
            (getFormatFromUrl (groupStr mt 1)) = some d := by
    intro l
    induction l with
    | nil => intro fs; exact ⟨[], by simp, by simp⟩
    | cons x xs ih =>
        intro fs
        rw [List.foldl_cons]
        dsimp only
        by_cases hseen : urlAlreadySeen fs (groupStr x 1) = true
        · obtain ⟨added, heq, hall⟩ := ih fs
          refine ⟨added, ?_, ?_⟩
          · rw [if_pos hseen]
            exact heq
          · intro d hd
            obtain ⟨mt, hmt, hmk⟩ := hall d hd
            exact ⟨mt, List.mem_cons_of_mem x hmt, hmk⟩
        · obtain ⟨added, heq, hall⟩ := ih
            (pushResolved m baseUrl family weight style (groupStr x 1)
              (getFormatFromUrl (groupStr x 1)) fs)
          refine ⟨(mkResolved m baseUrl family weight style (groupStr x 1)
              (getFormatFromUrl (groupStr x 1))).toList ++ added, ?_, ?_⟩
          · rw [if_neg hseen]
            rw [heq, pushResolved, List.append_assoc]
          · intro d hd
            rcases List.mem_append.mp hd with hd | hd
            · refine ⟨x, List.mem_cons_self x xs, ?_⟩
              cases hmk : mkResolved m baseUrl family weight style (groupStr x 1)
                  (getFormatFromUrl (groupStr x 1)) with
              | none => rw [hmk] at hd; simp at hd
              | some v =>
                  rw [hmk] at hd
                  simp only [Option.toList_some, List.mem_singleton] at hd
                  exact congrArg some hd.symm
            · obtain ⟨mt, hmt, hmk⟩ := hall d hd
              exact ⟨mt, List.mem_cons_of_mem x hmt, hmk⟩
  exact this _ fonts

/-! ## First-wins deduplication -/

/-- `==` on strings is symmetric. -/
theorem strBeq_comm (a b : String) : (a == b) = (b == a) := by
  cases h1 : a == b
  · cases h2 : b == a
    · rfl
    · obtain rfl := eq_of_beq h2
      simp at h1
  · obtain rfl := eq_of_beq h1
    simp

/-- Modelled from the spec: deduplicate by the `family+weight+style`
key, first occurrence wins, first-seen order preserved — keep the head,
drop every later descriptor with the head's key. -/
def dedupFirstWins : List FontInfo → List FontInfo
  | [] => []
  | f :: rest =>
      f :: (dedupFirstWins rest).filter (fun g => !(fontKey g == fontKey f))

/-- `dedupFirstWins` commutes with dropping one key. -/
theorem dedupFirstWins_filter (q : String) :
    ∀ l, dedupFirstWins (l.filter (fun g => !(fontKey g == q))) =
      (dedupFirstWins l).filter (fun g => !(fontKey g == q)) := by
  intro l
  induction l with
  | nil => rfl
  | cons h t ih =>
      by_cases hq : (fontKey h == q) = true
      · rw [List.filter_cons_of_neg (by simp [hq]), dedupFirstWins,
          List.filter_cons_of_neg (by simp [hq]), ih]
        rw [List.filter_filter]
        have hkq : fontKey h = q := eq_of_beq hq
        rw [hkq]
        exact (List.filter_congr (fun g _ => by
          cases hgq : (fontKey g == q) <;> simp [hgq])).symm
      · rw [List.filter_cons_of_pos (by simp [hq]), dedupFirstWins, dedupFirstWins,
          List.filter_cons_of_pos (by simp [hq]), ih]
        rw [List.filter_filter, List.filter_filter]
        exact congrArg (h :: ·) (List.filter_congr (fun g _ => Bool.and_comm _ _))

/-- The source's map-based fold is exactly first-wins deduplication. -/
theorem dedupeFonts_eq_firstWins : ∀ fonts, dedupeFonts fonts = dedupFirstWins fonts := by
  have key : ∀ (l : List FontInfo) (acc : List (String × FontInfo)),
      (l.foldl (fun acc f =>
          let key := fontKey f
          if acc.any (fun p => p.1 == key) then acc else acc ++ [(key, f)]) acc).map (·.2)
        = acc.map (·.2) ++
          dedupFirstWins (l.filter (fun f => !(acc.any (fun p => p.1 == fontKey f)))) := by
    intro l
    induction l with
    | nil => intro acc; simp [dedupFirstWins]
    | cons f rest ih =>
        intro acc
        rw [List.foldl_cons]
        dsimp only
        by_cases hin : (acc.any (fun p => p.1 == fontKey f)) = true
        · rw [if_pos hin, ih, List.filter_cons_of_neg (by simp [hin])]
        · rw [if_neg hin, ih, List.filter_cons_of_pos (by simp [hin]),
            dedupFirstWins, List.map_append]
          simp only [List.map_cons, List.map_nil, List.append_assoc,
            List.singleton_append]
          congr 2
          rw [← dedupFirstWins_filter (fontKey f), List.filter_filter]
          refine congrArg dedupFirstWins (List.filter_congr ?_)
          intro g _
          rw [List.any_append]
          simp only [List.any_cons, List.any_nil, Bool.or_false]
          rw [strBeq_comm (fontKey f) (fontKey g)]
          cases h1 : (acc.any (fun p => p.1 == fontKey g)) <;>
            cases h2 : (fontKey g == fontKey f) <;> simp [h1, h2]
  intro fonts
  rw [dedupeFonts, key fonts []]
  simp

/-- `dedupFirstWins` returns a sublist of its input. -/
theorem mem_dedupFirstWins : ∀ {l : List FontInfo} {d : FontInfo},
    d ∈ dedupFirstWins l → d ∈ l := by
  intro l
  induction l with
  | nil => intro d hd; cases hd
  | cons f rest ih =>
      intro d hd
      rw [dedupFirstWins] at hd
      rcases List.mem_cons.mp hd with h | h
      · exact h ▸ List.mem_cons_self f rest
      · exact List.mem_cons_of_mem f (ih (List.mem_of_mem_filter h))

/-- Output keys of `dedupFirstWins` are pairwise distinct: equal keys
force equal descriptors. -/
theorem dedupFirstWins_keysInj : ∀ (l : List FontInfo) (d1 d2 : FontInfo),
    d1 ∈ dedupFirstWins l → d2 ∈ dedupFirstWins l →
    fontKey d1 = fontKey d2 → d1 = d2 := by
  intro l
  induction l with
  | nil => intro d1 d2 h1; cases h1
  | cons f rest ih =>
      intro d1 d2 h1 h2 hk
      rw [dedupFirstWins] at h1 h2
      rcases List.mem_cons.mp h1 with e1 | m1 <;> rcases List.mem_cons.mp h2 with e2 | m2
      · rw [e1, e2]
      · subst e1
        have := List.of_mem_filter m2
        rw [hk] at this
        simp at this
      · subst e2
        have := List.of_mem_filter m1
        rw [← hk] at this
        simp at this
      · exact ih d1 d2 (List.mem_of_mem_filter m1) (List.mem_of_mem_filter m2) hk

/-! ## The proxy fallback chain -/

/-- Modelled from the spec: try each request in order, swallow thrown
fetches and non-2xx responses, return the first 2xx response, and fail
with the fixed error once the candidate list is exhausted. -/
def firstSuccess (op : String → Except String JsResponse) :
    List String → Except String JsResponse
  | [] => Except.error "All proxies failed"
  | req :: rest =>
      match op req with
      | Except.ok r => if r.ok then Except.ok r else firstSuccess op rest
      | Except.error _ => firstSuccess op rest

/-- `fetchWithProxy` is the in-order first-success scan over the relay
requests built as `relay ++ encodeURIComponent(target)`. -/
theorem fetchWithProxy_eq_firstSuccess (fetchO : String → Except String JsResponse)
    (targetUrl : String) :
    fetchWithProxy fetchO targetUrl =
      firstSuccess fetchO (CORS_PROXIES.map (fun p => p ++ encodeURIComponent targetUrl)) := by
  rw [fetchWithProxy]
  have : ∀ l : List String, fetchWithProxy.go fetchO targetUrl l =
      firstSuccess fetchO (l.map (fun p => p ++ encodeURIComponent targetUrl)) := by
    intro l
    induction l with
    | nil => rfl
    | cons p rest ih =>
        rw [fetchWithProxy.go, List.map_cons, firstSuccess]
        cases fetchO (p ++ encodeURIComponent targetUrl) with
        | ok r =>
            by_cases hr : r.ok = true
            · simp [hr]
            · simp [hr, ih]
        | error e => exact ih
  exact this CORS_PROXIES

/-- The only failure `firstSuccess` can produce is the fixed message. -/
theorem firstSuccess_error (op : String → Except String JsResponse) :
    ∀ (reqs : List String) (e : String),
      firstSuccess op reqs = Except.error e → e = "All proxies failed" := by
  intro reqs
  induction reqs with
  | nil =>
      intro e he
      rw [firstSuccess] at he
      injection he with he
      exact he.symm
  | cons req rest ih =>
      intro e he
      rw [firstSuccess] at he
      cases hop : op req with
      | ok r =>
          rw [hop] at he
          simp only [] at he
          by_cases hr : r.ok = true
          · rw [if_pos hr] at he
            cases he
          · rw [if_neg hr] at he
            exact ih e he
      | error e' =>
          rw [hop] at he
          exact ih e he

/-! ## The instrumented parser never throws -/

/-- `foldlM` over `Except` with pointwise-`ok` steps is an `ok` fold. -/
theorem foldlM_ok {α β : Type} {f : β → α → Except String β} {g : β → α → β}
    (h : ∀ b a, f b a = Except.ok (g b a)) :
    ∀ (l : List α) (b : β), l.foldlM f b = Except.ok (l.foldl g b) := by
  intro l
  induction l with
  | nil => intro b; rfl
  | cons x xs ih =>
      intro b
      rw [List.foldlM_cons, h b x]
      show xs.foldlM f (g b x) = _
      rw [ih (g b x), List.foldl_cons]

/-- The caught push agrees with the plain one. -/
theorem pushResolvedT_eq (m : UrlModel) (baseUrl family weight style fontUrl format : String)
    (fonts : List FontInfo) :
    pushResolvedT m baseUrl family weight style fontUrl format fonts =
      pushResolved m baseUrl family weight style fontUrl format fonts := by
  rw [pushResolvedT, pushResolved, mkResolved, resolveT, hostnameT]
  cases hr : m.resolve fontUrl baseUrl with
  | none => simp [tryCatchJs]
  | some fullUrl =>
      cases hh : m.hostname baseUrl with
      | none => simp [tryCatchJs, hh]
      | some host => simp [tryCatchJs, hh]

/-- One instrumented block iteration returns `ok` with the plain result:
no exception escapes the per-push `try/catch`. -/
theorem processBlockT_ok (m : UrlModel) (baseUrl : String) (fonts : List FontInfo)
    (block : String) :
    processBlockT m baseUrl fonts block =
      Except.ok (processBlock m baseUrl fonts block) := by
  rw [processBlockT, processBlock]
  cases hsrc : srcOf block with
  | none => rfl
  | some srcValue =>
      simp only []
      rw [@foldlM_ok MatchRes (List FontInfo)
          (fun fs mt =>
            Except.ok (pushResolvedT m baseUrl (familyOf block) (weightOf block)
              (styleOf block) (groupStr mt 1) (jsToLower (groupStr mt 2)) fs))
          (fun fs mt =>
            pushResolved m baseUrl (familyOf block) (weightOf block)
              (styleOf block) (groupStr mt 1) (jsToLower (groupStr mt 2)) fs)
          (fun fs mt => congrArg Except.ok (pushResolvedT_eq m baseUrl _ _ _ _ _ fs))
          (execAll urlFormatRe srcValue) fonts]
      simp only []
      rw [@foldlM_ok MatchRes (List FontInfo)
          (fun fs mt =>
            if urlAlreadySeen fs (groupStr mt 1) then Except.ok fs
            else Except.ok (pushResolvedT m baseUrl (familyOf block) (weightOf block)
              (styleOf block) (groupStr mt 1) (getFormatFromUrl (groupStr mt 1)) fs))
          (fun fs mt =>
            if urlAlreadySeen fs (groupStr mt 1) then fs
            else pushResolved m baseUrl (familyOf block) (weightOf block)
              (styleOf block) (groupStr mt 1) (getFormatFromUrl (groupStr mt 1)) fs)
          (fun fs mt => by
            dsimp only
            by_cases hseen : urlAlreadySeen fs (groupStr mt 1) = true
            · rw [if_pos hseen, if_pos hseen]
            · rw [if_neg hseen, if_neg hseen,
                pushResolvedT_eq m baseUrl _ _ _ _ _ fs])
          (execAll simpleUrlRe srcValue)
          (List.foldl
            (fun fs mt =>
              pushResolved m baseUrl (familyOf block) (weightOf block)
                (styleOf block) (groupStr mt 1) (jsToLower (groupStr mt 2)) fs)
            fonts (execAll urlFormatRe srcValue))]
      rfl

/-- The instrumented whole parser always returns `ok` of the plain
parser's output: `parseFontFaces` is total and never lets an exception
escape. -/
theorem parseFontFacesT_ok (m : UrlModel) (cssText baseUrl : String) :
    parseFontFacesT m cssText baseUrl =
      Except.ok (parseFontFaces m cssText baseUrl) := by
  rw [parseFontFacesT, parseFontFaces]
  exact @foldlM_ok String (List FontInfo) (processBlockT m baseUrl)
    (processBlock m baseUrl) (fun fonts block => processBlockT_ok m baseUrl fonts block)
    (fontFaceBlocks cssText) []

/-! ## Google Fonts parser facts -/

/-- Every descriptor of a family segment is a `googleFont`: source
`'Google Fonts'`, no `url`, no `format`. -/
theorem mem_googleFamilySegment {family : String} {d : FontInfo}
    (h : d ∈ googleFamilySegment family) :
    d.source = "Google Fonts" ∧ d.url = none ∧ d.format = none := by
  rw [googleFamilySegment] at h
  cases hw : (jsSplitChar ':' family)[1]? with
  | none =>
      rw [hw] at h
      simp only [] at h
      simp only [List.mem_singleton] at h
      subst h
      exact ⟨rfl, rfl, rfl⟩
  | some weights =>
      rw [hw] at h
      simp only [] at h
      by_cases he : (weights == "") = true
      · rw [if_pos he] at h
        simp only [List.mem_singleton] at h
        subst h
        exact ⟨rfl, rfl, rfl⟩
      · rw [if_neg he] at h
        rw [List.mem_map] at h
        obtain ⟨w, _, rfl⟩ := h
        exact ⟨rfl, rfl, rfl⟩

/-- Every descriptor of `parseGoogleFontsUrl` has source `'Google
Fonts'` and no binary `url`. -/
theorem mem_parseGoogleFontsUrl {m : UrlModel} {url : String} {d : FontInfo}
    (h : d ∈ parseGoogleFontsUrl m url) :
    d.source = "Google Fonts" ∧ d.url = none ∧ d.format = none := by
  rw [parseGoogleFontsUrl] at h
  cases hp : m.getParam url "family" with
  | none => rw [hp] at h; cases h
  | some po =>
      rw [hp] at h
      cases po with
      | none => cases h
      | some familyParam =>
          rw [List.mem_flatMap] at h
          obtain ⟨fam, _, hd⟩ := h
          exact mem_googleFamilySegment hd

/-- A weight token containing the letter `i` yields italic style. -/
theorem googleToken_italic {fontName w : String} (h : jsIncludes w "i" = true) :
    (googleToken fontName w).style = "italic" := by
  rw [googleToken, h]
  rfl

/-- The weight of a token is its digits, `'400'` when none remain. -/
theorem googleToken_weight (fontName w : String) :
    (googleToken fontName w).weight =
      (if (w.toList.filter Char.isDigit).isEmpty then "400"
       else String.mk (w.toList.filter Char.isDigit)) := by
  rw [googleToken]
  by_cases h : (w.toList.filter Char.isDigit).isEmpty = true
  · have : w.toList.filter Char.isDigit = [] := by
      cases hl : w.toList.filter Char.isDigit
      · rfl
      · rw [hl] at h; simp at h
    simp [this, googleFont]
  · have hne : ¬(w.toList.filter Char.isDigit) = [] := by
      intro hc
      rw [hc] at h
      simp at h
    simp [hne, h, googleFont]

/-! ## The claims -/

set_option maxRecDepth 400000
set_option maxHeartbeats 4000000

/-- CSS with one `@font-face` block whose body nests one level of
braces before the `src` declaration. -/
def cssNested : String :=
  "@font-face\x7bfont-family:N;@media\x7ba:1\x7dsrc:url(http://e/a.ttf)\x7d"

/-- CSS whose `font-family` value is only whitespace. -/
def cssBlankFamily : String :=
  "@font-face\x7bfont-family:  ;src:url(http://e/a.ttf)\x7d"

/-- CSS with no `font-family` declaration at all. -/
def cssNoFamily : String := "@font-face\x7bsrc:url(http://e/a.ttf)\x7d"

/-- The descriptor the family-less block yields: fallback family
`"Unknown"`, default weight and style, extension-inferred format. -/
def unknownFontDesc : FontInfo :=
  { family := "Unknown", weight := "400", style := "normal", source := "x",
    url := some "http://e/a.ttf", format := some "truetype" }

/-- CSS declaring `font-weight: lighter`. -/
def cssLighter : String :=
  "@font-face\x7bfont-family:A;font-weight:lighter;src:url(http://e/a.ttf)\x7d"

/-- CSS with one `url()/format()` pair on a `../` relative URL, a
two-digit weight and a capitalized style. -/
def cssRelPair : String :=
  "@font-face\x7bfont-family:A;font-weight:50;font-style:Oblique;src:url(../x.woff2) format(\"woff2\")\x7d"

/-- Two blocks naming the same font URL: first bare, then with a
declared `format()`. -/
def cssTwoBlocks : String :=
  "@font-face\x7bsrc:url(http://e/a.ttf)\x7d@font-face\x7bsrc:url(http://e/a.ttf) format(\"woff\")\x7d"

/-- C1: the CSS font-face parser is total.  The `Except`-instrumented
translation — in which the URL constructor throws and the source's
`try/catch` blocks are the only handlers — always returns `ok` of the
plain translation's output, for every css text, base URL, and URL-model;
and a URL that fails to resolve causes exactly its own push to be
skipped, leaving the accumulated descriptors unchanged. -/
theorem claim_parser_total :
    (∀ (m : UrlModel) (cssText baseUrl : String),
      parseFontFacesT m cssText baseUrl =
        Except.ok (parseFontFaces m cssText baseUrl)) ∧
    (∀ (m : UrlModel) (baseUrl family weight style fontUrl format : String)
      (fonts : List FontInfo), m.resolve fontUrl baseUrl = none →
      pushResolved m baseUrl family weight style fontUrl format fonts = fonts) :=
  ⟨parseFontFacesT_ok,
   fun m baseUrl family weight style fontUrl format fonts hr => by
     rw [pushResolved, mkResolved, hr]
     simp⟩

/-- Witness for C1 at a concrete unresolvable URL. -/
theorem claim_parser_total_witness :
    pushResolved browserUrl "nonsense" "F" "400" "normal" "alsononsense" "woff2" [] = [] :=
  claim_parser_total.2 browserUrl "nonsense" "F" "400" "normal" "alsononsense" "woff2" []
    (by decide)

/-- C2: evaluation at the failing input.  The block-extraction regex of
`parseFontFaces` — despite the nested-brace alternative in its pattern —
captures only up to the first closing brace: the nested `@media\x7ba:1\x7d`
truncates the body, the `src` declaration after it is lost, and the block
yields no descriptor at all. -/
theorem claim_block_truncation_eval :
    fontFaceBlocks cssNested = ["font-family:N;@media\x7ba:1"] ∧
    parseFontFaces browserUrl cssNested "http://x/a.css" = [] := by
  constructor
  · decide
  · decide

/-- Counterexample to C3: a block whose declared `font-family` value is
only whitespace produces a descriptor whose family is the empty string —
not `"Unknown"`, and not non-empty. -/
theorem claim_nonempty_family_cex :
    parseFontFaces browserUrl cssBlankFamily "http://x/a.css" =
      [{ family := "", weight := "400", style := "normal", source := "x",
         url := some "http://e/a.ttf", format := some "truetype" }] := by
  decide

/-- C3 (amended): a block with no matching `font-family` declaration is
not dropped — any descriptor it emits carries the fallback family
`"Unknown"` (concretely, a family-less block with a `src` still yields a
descriptor); and every emitted descriptor's weight is a nonempty numeric
string.  The family can, however, be empty when a `font-family` value
consists of whitespace only (see the counterexample). -/
theorem claim_family_fallback :
    (∀ (m : UrlModel) (baseUrl : String) (fonts : List FontInfo) (block : String)
      (d : FontInfo), jsMatch familyRe block = none →
      d ∈ processBlock m baseUrl fonts block → d ∈ fonts ∨ d.family = "Unknown") ∧
    (∀ (m : UrlModel) (cssText baseUrl : String) (d : FontInfo),
      d ∈ parseFontFaces m cssText baseUrl →
      allDigits d.weight = true ∧ d.weight ≠ "") ∧
    parseFontFaces browserUrl cssNoFamily "http://x/a.css" = [unknownFontDesc] := by
  refine ⟨?_, ?_, by decide⟩
  · intro m baseUrl fonts block d hnone hd
    rcases mem_processBlock hd with h | ⟨hf, _, _⟩
    · exact Or.inl h
    · right
      rw [hf, familyOf, hnone]
  · intro m cssText baseUrl d hd
    obtain ⟨block, _, _, hw, _⟩ := mem_parseFontFaces hd
    rw [hw]
    exact normalizeWeight_weightOf block

/-- Witness for C3 at the concrete family-less block. -/
theorem claim_family_fallback_witness :
    (unknownFontDesc ∈ ([] : List FontInfo) ∨ unknownFontDesc.family = "Unknown") ∧
    (allDigits unknownFontDesc.weight = true ∧ unknownFontDesc.weight ≠ "") := by
  constructor
  · exact claim_family_fallback.1 browserUrl "http://x/a.css" [] "src:url(http://e/a.ttf)"
      unknownFontDesc (by decide) (by decide)
  · exact claim_family_fallback.2.1 browserUrl cssNoFamily "http://x/a.css"
      unknownFontDesc (by decide)

/-- Counterexample to C4: the repository's second parser — the in-app
`parseFontFaces`/`normalizeWeight` of `App.tsx`, which the claim also
cites — recognizes only numeric, `normal` and `bold` weights.  Its
`normalizeWeight` leaves `lighter` unmapped, and a block declaring
`font-weight: lighter` falls back to weight `"400"`, not `"300"`. -/
theorem claim_lighter_weight_cex :
    appNormalizeWeight "lighter" = "lighter" ∧
    appParseFontFaces browserUrl cssLighter [] (some "http://x/a.css") =
      [("A", [{ weight := "400", style := "normal", url := "http://e/a.ttf",
                format := "ttf" }])] := by
  constructor
  · decide
  · decide

/-- C4 (amended): in the `fontExtractor.ts` parser the claim holds —
`normalizeWeight` maps `normal` to 400, `bold` and `bolder` to 700 and
`lighter` to 300, passes numeric weights through unchanged, a block
without a matching `font-weight` defaults to `"400"`, and every
descriptor emitted from a block whose captured weight token lowercases
to `lighter` has weight `"300"`.  The `App.tsx` parser diverges (see the
counterexample). -/
theorem claim_weight_normalization :
    (normalizeWeight "normal" = "400" ∧ normalizeWeight "bold" = "700" ∧
     normalizeWeight "bolder" = "700" ∧ normalizeWeight "lighter" = "300") ∧
    (∀ s : String, allDigits s = true → s ≠ "" → normalizeWeight s = s) ∧
    (∀ block : String, jsMatch weightRe block = none → weightOf block = "400") ∧
    (∀ (m : UrlModel) (baseUrl : String) (fonts : List FontInfo) (block : String)
      (d : FontInfo), jsToLower (weightOf block) = "lighter" →
      d ∈ processBlock m baseUrl fonts block → d ∈ fonts ∨ d.weight = "300") := by
  refine ⟨⟨by decide, by decide, by decide, by decide⟩,
    fun s h hne => normalizeWeight_of_digits h hne, ?_, ?_⟩
  · intro block hnone
    rw [weightOf, hnone]
  · intro m baseUrl fonts block d hlight hd
    rcases mem_processBlock hd with h | ⟨_, hw, _⟩
    · exact Or.inl h
    · right
      rw [hw, normalizeWeight, hlight]
      rw [show weightMap.find? (fun p => p.1 == "lighter") = some ("lighter", "300")
        from by decide]

/-- Witness for C4: numeric pass-through at `"55"`, the default at a
weight-less block, and `"300"` at a concrete `lighter` block. -/
theorem claim_weight_normalization_witness :
    normalizeWeight "55" = "55" ∧ weightOf "x" = "400" ∧
    (({ family := "A", weight := "300", style := "normal", source := "x",
        url := some "http://e/a.ttf",
        format := some "truetype" } : FontInfo) ∈ ([] : List FontInfo) ∨
      ({ family := "A", weight := "300", style := "normal", source := "x",
         url := some "http://e/a.ttf",
         format := some "truetype" } : FontInfo).weight = "300") := by
  refine ⟨claim_weight_normalization.2.1 "55" (by decide) (by decide),
    claim_weight_normalization.2.2.1 "x" (by decide), ?_⟩
  exact claim_weight_normalization.2.2.2 browserUrl "http://x/a.css" []
    "font-family:A;font-weight:lighter;src:url(http://e/a.ttf)" _
    (by decide) (by decide)

/-- The one block body of `cssRelPair`. -/
def relPairBlock : String :=
  "font-family:A;font-weight:50;font-style:Oblique;src:url(../x.woff2) format(\"woff2\")"

/-- The `src` value of that block. -/
def relPairSrc : String := "url(../x.woff2) format(\"woff2\")"

/-- The descriptor the parser builds from `cssRelPair` against base
`http://x/c/a.css`. -/
def relPairDesc : FontInfo :=
  { family := "A", weight := "50", style := "Oblique", source := "x",
    url := some "http://x/x.woff2", format := some "woff2" }

/-- Counterexample to C5: on `cssRelPair` — one well-formed block with a
single `url()/format()` pair — the parser emits TWO identical
descriptors, because the bare-`url()` pass's substring skip compares the
raw token `../x.woff2` against the already-resolved URL
`http://x/x.woff2` and misses.  Moreover the weight `50` is kept as a
2-digit string and the style keeps its source capitalization `Oblique`,
outside the literal set \x7bnormal, italic, oblique\x7d. -/
theorem claim_one_descriptor_per_pair_cex :
    parseFontFaces browserUrl cssRelPair "http://x/c/a.css" =
      [relPairDesc, relPairDesc] ∧
    srcOf relPairBlock = some relPairSrc ∧
    (execAll urlFormatRe relPairSrc).length = 1 ∧
    relPairDesc.weight.length ≠ 3 ∧
    relPairDesc.style ∉ (["normal", "italic", "oblique"] : List String) := by
  refine ⟨?_, by decide, by decide, by decide, by decide⟩
  have hb : fontFaceBlocks cssRelPair = [relPairBlock] := by decide
  rw [parseFontFaces, hb, List.foldl_cons, List.foldl_nil]
  show processBlock browserUrl "http://x/c/a.css" [] relPairBlock =
    [relPairDesc, relPairDesc]
  decide

/-- C5 (amended): the `url()/format()` pass appends exactly one
descriptor per resolvable declared pair, in order, with the lowercased
declared format — but the bare-`url()` pass may append more for the same
pair.  Each emitted descriptor's weight is a nonempty digit string (not
necessarily 3 digits) and its style is in \x7bnormal, italic, oblique\x7d
only up to case. -/
theorem claim_pair_pass_structure :
    (∀ (m : UrlModel) (baseUrl family weight style srcValue : String)
      (fonts : List FontInfo),
      pairPass m baseUrl family weight style srcValue fonts =
        fonts ++ (execAll urlFormatRe srcValue).filterMap
          (fun mt => mkResolved m baseUrl family weight style (groupStr mt 1)
            (jsToLower (groupStr mt 2)))) ∧
    (∀ (m : UrlModel) (cssText baseUrl : String) (d : FontInfo),
      d ∈ parseFontFaces m cssText baseUrl →
      allDigits d.weight = true ∧ d.weight ≠ "" ∧
      jsToLower d.style ∈ (["normal", "italic", "oblique"] : List String)) := by
  refine ⟨pairPass_eq, ?_⟩
  intro m cssText baseUrl d hd
  obtain ⟨block, _, _, hw, hs⟩ := mem_parseFontFaces hd
  rw [hw, hs]
  exact ⟨(normalizeWeight_weightOf block).1, (normalizeWeight_weightOf block).2,
    styleOf_spec block⟩

/-- Witness for C5: the descriptor parsed from `cssNoFamily` has a
nonempty numeric weight and a recognized (lowercased) style. -/
theorem claim_pair_pass_structure_witness :
    allDigits unknownFontDesc.weight = true ∧ unknownFontDesc.weight ≠ "" ∧
    jsToLower unknownFontDesc.style ∈ (["normal", "italic", "oblique"] : List String) :=
  claim_pair_pass_structure.2 browserUrl cssNoFamily "http://x/a.css"
    unknownFontDesc (by decide)

/-- The first (bare `url()`) block body of `cssTwoBlocks`. -/
def blockBare : String := "src:url(http://e/a.ttf)"

/-- The second block body of `cssTwoBlocks`, with a declared `format()`. -/
def blockPair : String := "src:url(http://e/a.ttf) format(\"woff\")"

/-- The extension-inferred descriptor from the first block. -/
def bareDesc : FontInfo :=
  { family := "Unknown", weight := "400", style := "normal", source := "x",
    url := some "http://e/a.ttf", format := some "truetype" }

/-- The declared-format descriptor from the second block. -/
def pairDesc : FontInfo :=
  { family := "Unknown", weight := "400", style := "normal", source := "x",
    url := some "http://e/a.ttf", format := some "woff" }

/-- Counterexample to C6: precedence of a declared `format()` over the
extension-inferred format holds only within a single block.  In
`cssTwoBlocks` the same URL appears first bare (inferred `truetype`) and
then with `format("woff")`; both descriptors are emitted, and since
deduplication keeps the FIRST of equal keys, the extension-inferred
descriptor wins over the declared one. -/
theorem claim_format_precedence_cex :
    parseFontFaces browserUrl cssTwoBlocks "http://x/a.css" = [bareDesc, pairDesc] ∧
    bareDesc.url = pairDesc.url ∧
    bareDesc.format = some "truetype" ∧ pairDesc.format = some "woff" ∧
    dedupeFonts [bareDesc, pairDesc] = [bareDesc] := by
  refine ⟨?_, by decide, by decide, by decide, by decide⟩
  have hb : fontFaceBlocks cssTwoBlocks = [blockBare, blockPair] := by decide
  rw [parseFontFaces, hb, List.foldl_cons, List.foldl_cons, List.foldl_nil]
  have h1 : processBlock browserUrl "http://x/a.css" [] blockBare = [bareDesc] := by
    decide
  rw [h1]
  decide

/-- C6 (amended): the extension map is exactly woff2→woff2, woff→woff,
ttf→truetype, otf→opentype, eot→embedded-opentype, `'unknown'`
otherwise; every descriptor the bare-`url()` pass appends carries the
extension-inferred format of its bare URL token; and within one block
the `url()/format()` pass runs before the bare pass, so a declared
format takes precedence only block-locally (the cross-block direction
fails, see the counterexample). -/
theorem claim_format_inference :
    (∀ url : String,
      (extensionOfUrl url = "woff2" → getFormatFromUrl url = "woff2") ∧
      (extensionOfUrl url = "woff" → getFormatFromUrl url = "woff") ∧
      (extensionOfUrl url = "ttf" → getFormatFromUrl url = "truetype") ∧
      (extensionOfUrl url = "otf" → getFormatFromUrl url = "opentype") ∧
      (extensionOfUrl url = "eot" → getFormatFromUrl url = "embedded-opentype") ∧
      (extensionOfUrl url ∉ (["woff2", "woff", "ttf", "otf", "eot"] : List String) →
        getFormatFromUrl url = "unknown")) ∧
    (∀ (m : UrlModel) (baseUrl family weight style srcValue : String)
      (fonts : List FontInfo),
      ∃ added,
        barePass m baseUrl family weight style srcValue fonts = fonts ++ added ∧
        ∀ d ∈ added, ∃ mt ∈ execAll simpleUrlRe srcValue,
          mkResolved m baseUrl family weight style (groupStr mt 1)
            (getFormatFromUrl (groupStr mt 1)) = some d) ∧
    (∀ (m : UrlModel) (baseUrl : String) (fonts : List FontInfo)
      (block srcValue : String), srcOf block = some srcValue →
      processBlock m baseUrl fonts block =
        barePass m baseUrl (familyOf block) (weightOf block) (styleOf block)
          srcValue
          (pairPass m baseUrl (familyOf block) (weightOf block) (styleOf block)
            srcValue fonts)) := by
  refine ⟨?_, barePass_append, ?_⟩
  · intro url
    refine ⟨?_, ?_, ?_, ?_, ?_, ?_⟩
    · intro h
      rw [getFormatFromUrl, h]
      rw [show formatMap.find? (fun p => p.1 == "woff2") = some ("woff2", "woff2")
        from by decide]
    · intro h
      rw [getFormatFromUrl, h]
      rw [show formatMap.find? (fun p => p.1 == "woff") = some ("woff", "woff")
        from by decide]
    · intro h
      rw [getFormatFromUrl, h]
      rw [show formatMap.find? (fun p => p.1 == "ttf") = some ("ttf", "truetype")
        from by decide]
    · intro h
      rw [getFormatFromUrl, h]
      rw [show formatMap.find? (fun p => p.1 == "otf") = some ("otf", "opentype")
        from by decide]
    · intro h
      rw [getFormatFromUrl, h]
      rw [show formatMap.find? (fun p => p.1 == "eot") = some ("eot", "embedded-opentype")
        from by decide]
    · intro h
      rw [getFormatFromUrl]
      rw [show formatMap.find? (fun p => p.1 == extensionOfUrl url) = none from by
        rw [List.find?_eq_none]
        intro p hp hbe
        apply h
        rw [← eq_of_beq hbe]
        fin_cases hp <;> decide]
  · intro m baseUrl fonts block srcValue h
    rw [processBlock, h]

/-- Witness for C6: the map at `.ttf` and at an unknown extension, and
the two-pass decomposition at the concrete bare block. -/
theorem claim_format_inference_witness :
    getFormatFromUrl "http://e/a.ttf" = "truetype" ∧
    getFormatFromUrl "http://e/a.xyz" = "unknown" ∧
    processBlock browserUrl "http://x/a.css" [] blockBare =
      barePass browserUrl "http://x/a.css" (familyOf blockBare) (weightOf blockBare)
        (styleOf blockBare) "url(http://e/a.ttf)"
        (pairPass browserUrl "http://x/a.css" (familyOf blockBare) (weightOf blockBare)
          (styleOf blockBare) "url(http://e/a.ttf)" []) :=
  ⟨(claim_format_inference.1 "http://e/a.ttf").2.2.1 (by decide),
   (claim_format_inference.1 "http://e/a.xyz").2.2.2.2.2 (by decide),
   claim_format_inference.2.2 browserUrl "http://x/a.css" [] blockBare
     "url(http://e/a.ttf)" (by decide)⟩

/-- C7: Google Fonts query parsing.  The concrete link with
`family=Roboto:400,700i` yields exactly the two claimed descriptors; in
general a weight token containing `i` (hence also one containing
`italic`) is italic, the token's weight is its digit subsequence with
`'400'` as the empty default, and every emitted descriptor has source
`'Google Fonts'` and neither a `url` nor a `format`. -/
theorem claim_google_fonts_parsing :
    parseGoogleFontsUrl browserUrl
        "https://fonts.googleapis.com/css2?family=Roboto:400,700i" =
      [googleFont "Roboto" "400" "normal", googleFont "Roboto" "700" "italic"] ∧
    (∀ fontName w : String, jsIncludes w "i" = true →
      (googleToken fontName w).style = "italic") ∧
    (∀ fontName w : String, (googleToken fontName w).weight =
      (if (w.toList.filter Char.isDigit).isEmpty then "400"
       else String.mk (w.toList.filter Char.isDigit))) ∧
    (∀ (m : UrlModel) (url : String) (d : FontInfo),
      d ∈ parseGoogleFontsUrl m url →
      d.source = "Google Fonts" ∧ d.url = none ∧ d.format = none) := by
  refine ⟨by decide, fun fontName w h => googleToken_italic h,
    googleToken_weight, ?_⟩
  intro m url d hd
  exact mem_parseGoogleFontsUrl hd

/-- Witness for C7: the italic rule at token `700i` and the
source/url/format facts at the first Roboto descriptor. -/
theorem claim_google_fonts_parsing_witness :
    (googleToken "Roboto" "700i").style = "italic" ∧
    ((googleFont "Roboto" "400" "normal").source = "Google Fonts" ∧
     (googleFont "Roboto" "400" "normal").url = none ∧
     (googleFont "Roboto" "400" "normal").format = none) :=
  ⟨claim_google_fonts_parsing.2.1 "Roboto" "700i" (by decide),
   claim_google_fonts_parsing.2.2.2 browserUrl
     "https://fonts.googleapis.com/css2?family=Roboto:400,700i"
     (googleFont "Roboto" "400" "normal") (by decide)⟩

/-- C8: the reduce-into-a-map deduplication of `extractFontsFromCSS` is
exactly first-wins deduplication on the joined key, keeping first-seen
order: it equals the spec-modelled `dedupFirstWins`, equal keys in the
output force equal descriptors (so two descriptors with the same key
collapse to the first-seen one, every field included), and every output
descriptor is one of the inputs. -/
theorem claim_dedupe_first_wins :
    (∀ fonts, dedupeFonts fonts = dedupFirstWins fonts) ∧
    (∀ (l : List FontInfo) (d1 d2 : FontInfo), d1 ∈ dedupeFonts l →
      d2 ∈ dedupeFonts l → fontKey d1 = fontKey d2 → d1 = d2) ∧
    (∀ (l : List FontInfo) (d : FontInfo), d ∈ dedupeFonts l → d ∈ l) := by
  refine ⟨dedupeFonts_eq_firstWins, ?_, ?_⟩
  · intro l d1 d2 h1 h2 hk
    rw [dedupeFonts_eq_firstWins] at h1 h2
    exact dedupFirstWins_keysInj l d1 d2 h1 h2 hk
  · intro l d hd
    rw [dedupeFonts_eq_firstWins] at hd
    exact mem_dedupFirstWins hd

/-- Witness for C8: on the two equal-key descriptors of `cssTwoBlocks`,
key injectivity and input membership at the surviving descriptor. -/
theorem claim_dedupe_first_wins_witness :
    bareDesc = bareDesc ∧ bareDesc ∈ [bareDesc, pairDesc] :=
  ⟨claim_dedupe_first_wins.2.1 [bareDesc, pairDesc] bareDesc bareDesc
     (by decide) (by decide) rfl,
   claim_dedupe_first_wins.2.2 [bareDesc, pairDesc] bareDesc (by decide)⟩

/-- Counterexample to C9: when every relay fails, `fetchWithProxy`
throws the fixed message `'All proxies failed'`, which does not contain
the target URL. -/
theorem claim_proxy_error_message_cex :
    fetchWithProxy (fun _ => Except.error "net down") "https://ex.com/x" =
      Except.error "All proxies failed" ∧
    jsIncludes "All proxies failed" "https://ex.com/x" = false := by
  refine ⟨by rfl, by decide⟩

/-- C9 (amended): `fetchWithProxy` is the in-order first-success scan
over the relay list, each request built as the relay template plus the
percent-encoded target; thrown fetches and non-2xx responses fall
through to the next relay; and the only possible failure is the fixed
`'All proxies failed'` error — which, contrary to the claim, carries no
target URL — with no partial result. -/
theorem claim_proxy_fallback_chain :
    (∀ (fetchO : String → Except String JsResponse) (targetUrl : String),
      fetchWithProxy fetchO targetUrl =
        firstSuccess fetchO
          (CORS_PROXIES.map (fun p => p ++ encodeURIComponent targetUrl))) ∧
    (∀ (fetchO : String → Except String JsResponse) (targetUrl e : String),
      fetchWithProxy fetchO targetUrl = Except.error e →
      e = "All proxies failed") := by
  refine ⟨fetchWithProxy_eq_firstSuccess, ?_⟩
  intro fetchO targetUrl e he
  rw [fetchWithProxy_eq_firstSuccess] at he
  exact firstSuccess_error fetchO _ e he

/-- Witness for C9: the scan equality at a concrete failing fetch, and
the error-message lemma at its concrete failure. -/
theorem claim_proxy_fallback_chain_witness :
    fetchWithProxy (fun _ => Except.error "refused") "http://t" =
      firstSuccess (fun _ => Except.error "refused")
        (CORS_PROXIES.map (fun p => p ++ encodeURIComponent "http://t")) ∧
    "All proxies failed" = "All proxies failed" :=
  ⟨claim_proxy_fallback_chain.1 (fun _ => Except.error "refused") "http://t",
   claim_proxy_fallback_chain.2 (fun _ => Except.error "refused") "http://t"
     "All proxies failed" (by rfl)⟩

/-- A descriptor whose family ends in a hyphen-digit suffix … -/
def collA : FontInfo := googleFont "A-7" "0" "normal"

/-- … and one with a distinct triple but the same joined key. -/
def collB : FontInfo := googleFont "A" "7-0" "normal"

/-- C10: the deduplication key is the hyphen-joined
`family-weight-style` string, and the join is ambiguous: `collA` and
`collB` have distinct (family, weight, style) triples yet equal keys,
and deduplication collapses them to the first one. -/
theorem claim_dedupe_key_collision :
    (∀ f : FontInfo, fontKey f = f.family ++ "-" ++ f.weight ++ "-" ++ f.style) ∧
    fontKey collA = fontKey collB ∧
    (collA.family, collA.weight, collA.style) ≠
      (collB.family, collB.weight, collB.style) ∧
    dedupeFonts [collA, collB] = [collA] := by
  exact ⟨fun f => rfl, by decide, by decide, by decide⟩
